import Mathlib

set_option maxHeartbeats 1000000

namespace AgentPlatform

/-- JSON-like Python values flowing through the workflow engine
(`src/backend/src/agent_platform/services/workflow_engine.py`). -/
inductive Value where
  | null : Value
  | bool : Bool → Value
  | int : Int → Value
  | str : String → Value
  | list : List Value → Value
  | obj : List (String × Value) → Value

/-- Python `d[k] = v` on an insertion-ordered dict modelled as an
association list: replace in place if the key exists, else append. -/
def dset : List (String × Value) → String → Value → List (String × Value)
  | [], k, v => [(k, v)]
  | (k1, v1) :: rest, k, v =>
    if k1 = k then (k, v) :: rest else (k1, v1) :: dset rest k v

/-- Python `d.get(k)` on the insertion-ordered dict model. -/
def dget : List (String × Value) → String → Option Value
  | [], _ => none
  | (k1, v1) :: rest, k => if k1 = k then some v1 else dget rest k

/-- A workflow node as far as the engine's graph layer reads it: only
its `id` field (`node["id"]`).  The `type`/`data` payload is consumed
by `_execute_node`, which we model as an oracle keyed by node id. -/
structure NodeDef where
  id : String

/-- A workflow edge: `edge.get("source")` / `edge.get("target")`. -/
structure EdgeDef where
  source : Option String
  target : Option String

/-- First phase of `WorkflowEngine._build_dag`: add a node id as a dag
key (with empty predecessor list) if not already present. -/
def dagAddNode (dag : List (String × List String)) (i : String) :
    List (String × List String) :=
  if (List.lookup i dag).isSome then dag else dag ++ [(i, [])]

/-- Second phase of `_build_dag` for one valid edge: `dag[target]`
gains `source` if not already present; `defaultdict(list)` creates the
`target` entry at the end of the dict when absent. -/
def appendDep : List (String × List String) → String → String →
    List (String × List String)
  | [], t, s => [(t, [s])]
  | (k, ds) :: rest, t, s =>
    if k = t then (k, if s ∈ ds then ds else ds ++ [s]) :: rest
    else (k, ds) :: appendDep rest t s

/-- One iteration of the edge loop of `_build_dag`: the edge is used
only when both endpoints are truthy (present and non-empty). -/
def edgeStep (dag : List (String × List String)) (e : EdgeDef) :
    List (String × List String) :=
  match e.source, e.target with
  | some s, some t => if s ≠ "" ∧ t ≠ "" then appendDep dag t s else dag
  | _, _ => dag

/-- The node loop of `_build_dag`: every node id becomes a key. -/
def nodesFold (nodes : List NodeDef) : List (String × List String) :=
  nodes.foldl (fun d nd => dagAddNode d nd.id) []

/-- `WorkflowEngine._build_dag(nodes, edges)`: an insertion-ordered
adjacency map node-id → list of predecessor node-ids. -/
def buildDag (nodes : List NodeDef) (edges : List EdgeDef) :
    List (String × List String) :=
  edges.foldl edgeStep (nodesFold nodes)

/-- Predecessor list of a node in the built dag. -/
def depsOf (dag : List (String × List String)) (n : String) : List String :=
  (List.lookup n dag).getD []

/-- Inner loop of `_topological_sort` run when `current` is popped:
walk the dag in insertion order, decrement the in-degree of every node
listing `current` as predecessor, and collect the nodes whose degree
just reached zero (in dag order), to be appended to the ready queue. -/
def decStep (dag : List (String × List String)) (current : String)
    (deg : String → Int) : (String → Int) × List String :=
  dag.foldl
    (fun acc p =>
      if current ∈ p.2 then
        (fun m => if m = p.1 then acc.1 p.1 - 1 else acc.1 m,
         if acc.1 p.1 - 1 = 0 then acc.2 ++ [p.1] else acc.2)
      else acc)
    (deg, [])

/-- Generalisation of `decStep` to an arbitrary starting accumulator,
used to reason about its fold. -/
def decGo (current : String) (l : List (String × List String))
    (st : (String → Int) × List String) : (String → Int) × List String :=
  l.foldl
    (fun acc p =>
      if current ∈ p.2 then
        (fun m => if m = p.1 then acc.1 p.1 - 1 else acc.1 m,
         if acc.1 p.1 - 1 = 0 then acc.2 ++ [p.1] else acc.2)
      else acc)
    st

/-- The `while queue:` loop of `_topological_sort` (Kahn's algorithm),
with fuel.  The fuel `dag.length + 1` used below is shown never to be
the binding constraint (each pop consumes a distinct dag key). -/
def kahnRun (dag : List (String × List String)) :
    Nat → List String → List String → (String → Int) → List String
  | 0, _, result, _ => result
  | _ + 1, [], result, _ => result
  | fuel + 1, c :: rest, result, deg =>
    match decStep dag c deg with
    | (deg2, newly) => kahnRun dag fuel (rest ++ newly) (result ++ [c]) deg2

/-- Message of the `ValueError` raised on a cycle. -/
def circularMsg : String := "Circular dependency detected in workflow"

/-- `WorkflowEngine._topological_sort(dag, nodes)` (the `nodes`
argument is unused by the source).  Raising `ValueError` is modelled
as `Except.error`. -/
def topoSort (dag : List (String × List String)) : Except String (List String) :=
  let deg0 : String → Int := fun m => (((List.lookup m dag).getD []).length : Int)
  let queue0 := (dag.filter (fun p => p.2.isEmpty)).map Prod.fst
  let result := kahnRun dag (dag.length + 1) queue0 [] deg0
  if result.length ≠ dag.length then Except.error circularMsg else Except.ok result

/-- `WorkflowContext`: `trigger_data` plus the `_results` dict. -/
structure Ctx where
  trigger : Value
  results : List (String × Value)

/-- `WorkflowContext.to_dict`: `{"trigger": trigger_data, **_results}`.
Keys of `_results` override the `"trigger"` entry in place. -/
def toDict (ctx : Ctx) : List (String × Value) :=
  ctx.results.foldl (fun d kv => dset d kv.1 kv.2) [("trigger", ctx.trigger)]

/-- The per-node success record `{"status": "completed", "result": r}`. -/
def wrapCompleted (v : Value) : Value :=
  Value.obj [("status", Value.str "completed"), ("result", v)]

/-- The fields of the returned `WorkflowExecution` that the engine
writes (timestamps omitted). -/
structure ExecRecord where
  status : String
  nodeResults : List (String × Value)
  error : Option String

/-- The node-execution loop of `WorkflowEngine.execute` (step 4).
`f` is the oracle for `_execute_node`: `Except.error e` models the
node raising an exception with message `e`.  On an exception the
source sets `execution.node_results = context._results` — the raw
results dict of previously completed nodes; the locally built
`node_results` dict (which holds the wrapped records and the failed
record) is discarded on that path. -/
def runNodes (f : String → Ctx → Except String Value) (nodeIds : List String) :
    List String → Ctx → List (String × Value) → ExecRecord
  | [], _, nrs => { status := "completed", nodeResults := nrs, error := none }
  | nid :: rest, ctx, nrs =>
    if nid ∈ nodeIds then
      match f nid ctx with
      | Except.ok v =>
        runNodes f nodeIds rest { ctx with results := dset ctx.results nid v }
          (dset nrs nid (wrapCompleted v))
      | Except.error e =>
        { status := "failed", nodeResults := ctx.results, error := some e }
    else runNodes f nodeIds rest ctx nrs

/-- `WorkflowEngine.execute(workflow, trigger_data)` restricted to the
fields of the returned execution record.  A raise inside
`_topological_sort` is caught by the outer handler with
`context._results` still empty. -/
def execute (nodes : List NodeDef) (edges : List EdgeDef) (triggerData : Value)
    (f : String → Ctx → Except String Value) : ExecRecord :=
  match topoSort (buildDag nodes edges) with
  | Except.error e => { status := "failed", nodeResults := [], error := some e }
  | Except.ok order =>
    runNodes f (nodes.map NodeDef.id) order { trigger := triggerData, results := [] } []

/-- Keys of the adjacency map, in dict insertion order. -/
def dagKeys (dag : List (String × List String)) : List String := dag.map Prod.fst

/-- Predecessor relation of the built graph: `a` is a predecessor of
`b` (edge `a → b`, so `b` depends on `a`). -/
def depRel (dag : List (String × List String)) (a b : String) : Prop :=
  a ∈ depsOf dag b

/-- A directed cycle `a → rest₁ → … → restₖ → a` in the dependency
graph. -/
def IsCycle (dag : List (String × List String)) (a : String) (rest : List String) : Prop :=
  List.Chain (depRel dag) a rest ∧
    depRel dag ((a :: rest).getLast (List.cons_ne_nil a rest)) a

/-- Largest index (in `res`) of any element of `ds`. -/
def maxIdx (res ds : List String) : Nat :=
  (ds.map fun d => res.indexOf d).foldr max 0

/-- The step of the run at which a node became ready: `0` for nodes
with no predecessors, otherwise one past the position (in the final
dispatch order `res`) of its last-dispatched predecessor. -/
def readyStep (dag : List (String × List String)) (res : List String) (n : String) : Nat :=
  if depsOf dag n = [] then 0 else maxIdx res (depsOf dag n) + 1

/-- Strict lexicographic order on (ready step, dag-key position) used
to state the FIFO tie-break of the ready queue. -/
def lexRel (dag : List (String × List String)) (res : List String) (x y : String) : Prop :=
  readyStep dag res x < readyStep dag res y ∨
    (readyStep dag res x = readyStep dag res y ∧
      (dagKeys dag).indexOf x < (dagKeys dag).indexOf y)

/-- Position of the first appearance of a node id in the workflow's
`nodes` sequence. -/
def firstPos (nodes : List NodeDef) (x : String) : Nat :=
  (nodes.map NodeDef.id).indexOf x

/-- Invariant of the Kahn loop state `(queue, result, deg)`. -/
structure KInv (dag : List (String × List String)) (queue result : List String)
    (deg : String → Int) : Prop where
  result_nodup : result.Nodup
  result_keys : ∀ n ∈ result, n ∈ dagKeys dag
  queue_nodup : queue.Nodup
  queue_keys : ∀ n ∈ queue, n ∈ dagKeys dag
  disj : ∀ n ∈ queue, n ∉ result
  deg_eq : ∀ n ∈ dagKeys dag, deg n =
    ((depsOf dag n).length : Int) - ((depsOf dag n).filter (fun d => d ∈ result)).length
  queue_ready : ∀ n ∈ queue, ∀ d ∈ depsOf dag n, d ∈ result
  ready_in : ∀ n ∈ dagKeys dag, n ∉ result → (∀ d ∈ depsOf dag n, d ∈ result) → n ∈ queue
  topo : ∀ l1 n l2, result = l1 ++ n :: l2 → ∀ d ∈ depsOf dag n, d ∈ l1
  lex : (result ++ queue).Pairwise (lexRel dag result)

/-! ## Rate limiter (`services/rate_limiter.py`)

`RateLimiter.check_rate_limit` runs one atomic pipeline against a
Redis sorted set: `zremrangebyscore key 0 (now - window)`, `zcard`,
`zadd key {str(now): now}`, `expire`.  The sorted set is modelled as a
duplicate-free list of integer timestamps (the member of each entry is
the decimal string of its score, so two calls in the same second share
one member). -/

/-- `zremrangebyscore key 0 windowStart`: drop scores in
`[0, windowStart]`. -/
def rlEvict (windowStart : Int) (s : List Int) : List Int :=
  s.filter fun t => ¬ (0 ≤ t ∧ t ≤ windowStart)

/-- `zadd key {str(now): now}`: inserting an existing member leaves
the set unchanged. -/
def rlAdd (now : Int) (s : List Int) : List Int :=
  if now ∈ s then s else s ++ [now]

/-- State transformation of one `check_rate_limit` pipeline at time
`now` (the state does not depend on the limit: `zadd` runs whether or
not the call is allowed). -/
def rlStep (window now : Int) (s : List Int) : List Int :=
  rlAdd now (rlEvict (now - window) s)

/-- Sorted-set state after a sequence of calls, starting empty. -/
def rlState (window : Int) (calls : List Int) : List Int :=
  calls.foldl (fun s t => rlStep window t s) []

/-- Per-call `allowed` results of `check_rate_limit`: the count read
by `zcard` (after eviction, before the call's own `zadd`) must be
below the limit. -/
def rlAllowedFrom (limit : Nat) (window : Int) : List Int → List Int → List Bool
  | _, [] => []
  | s, t :: ts =>
    decide ((rlEvict (t - window) s).length < limit) ::
      rlAllowedFrom limit window (rlAdd t (rlEvict (t - window) s)) ts

/-- Allowed flags for a call sequence starting from an empty key. -/
def rlAllowed (limit : Nat) (window : Int) (calls : List Int) : List Bool :=
  rlAllowedFrom limit window [] calls

/-- Number of calls that were allowed and whose timestamp lies in the
rolling window `(T - window, T]`. -/
def allowedInWindow (limit : Nat) (window T : Int) (calls : List Int) : Nat :=
  ((calls.zip (rlAllowed limit window calls)).filter
    fun p => p.2 && decide (T - window < p.1) && decide (p.1 ≤ T)).length

/-! ## Chat / tool-use loop (`core/chat.py`) -/

/-- A tool call parsed from the LLM response. -/
structure ToolCallE where
  id : String
  name : String
  args : Value

/-- A tool execution result. -/
structure ToolResultE where
  success : Bool
  output : Value
  error : Option String

/-- An LLM response: `has_tool_calls` is `tool_calls ≠ []`. -/
structure LLMResp where
  content : String
  toolCalls : List ToolCallE

/-- A chat message as appended to the running history. -/
structure Msg where
  role : String
  content : String
  toolCallId : Option String

/-- Events yielded by `chat_stream_with_tools`.  The `error` variant
exists in the `ChatEvent` docstring but the generator never produces
it (the SSE route layer synthesises error events from exceptions). -/
inductive ChatEv where
  | toolCall : ToolCallE → ChatEv
  | toolResult : String → ToolResultE → ChatEv
  | content : String → ChatEv
  | done : ChatEv
  | error : String → ChatEv

/-- `ChatService.MAX_TOOL_ITERATIONS`. -/
def maxToolIterations : Nat := 5

/-- The two messages appended (and persisted) per executed tool call:
the assistant marker and the `role=tool` result, `dumps` standing for
`json.dumps(result.to_dict())`. -/
def toolMsgs (dumps : ToolResultE → String) (tc : ToolCallE) (r : ToolResultE) : List Msg :=
  [{ role := "assistant", content := "Calling tool: " ++ tc.name, toolCallId := none },
   { role := "tool", content := dumps r, toolCallId := some tc.id }]

/-- The `stream_with_tools` generator of
`ChatService.chat_stream_with_tools`, parametrised by the LLM
(`llm.chat_with_tools` as a function of the message list) and the tool
executor.  Returns the yielded events and the number of LLM calls
made.  With tool calls present the loop emits a
`tool_call`/`tool_result` pair per call and continues; with none it
emits `content` (only when non-empty) then `done` and breaks.  When
the fuel (`iteration < MAX_TOOL_ITERATIONS`) runs out the generator
simply ends: no terminal event is emitted on that path. -/
def streamRun (llm : List Msg → LLMResp) (exec : ToolCallE → ToolResultE)
    (dumps : ToolResultE → String) : Nat → List Msg → List ChatEv × Nat
  | 0, _ => ([], 0)
  | n + 1, msgs =>
    let r := llm msgs
    if r.toolCalls.isEmpty then
      ((if r.content ≠ "" then [ChatEv.content r.content] else []) ++ [ChatEv.done], 1)
    else
      let evs := r.toolCalls.flatMap fun tc =>
        [ChatEv.toolCall tc, ChatEv.toolResult tc.id (exec tc)]
      let msgs2 := msgs ++ r.toolCalls.flatMap fun tc => toolMsgs dumps tc (exec tc)
      let rest := streamRun llm exec dumps n msgs2
      (evs ++ rest.1, rest.2 + 1)

/-- The tool loop of the non-streaming `ChatService.chat`: returns the
number of LLM calls made and the final assistant content (on cap
exhaustion the source falls out of the `while` and uses the last
response's content). -/
def chatRun (llm : List Msg → LLMResp) (exec : ToolCallE → ToolResultE)
    (dumps : ToolResultE → String) : Nat → List Msg → String → Nat × String
  | 0, _, last => (0, last)
  | n + 1, msgs, _ =>
    let r := llm msgs
    if r.toolCalls.isEmpty then (1, r.content)
    else
      let msgs2 := msgs ++ r.toolCalls.flatMap fun tc => toolMsgs dumps tc (exec tc)
      let rest := chatRun llm exec dumps n msgs2 r.content
      (rest.1 + 1, rest.2)

/-! ## Webhook dispatch (`api/routes/webhooks.py`) -/

/-- A `WebhookTrigger` row as read by the handler. -/
structure WebhookTriggerRec where
  workflowId : String
  secret : Option String
  lastTriggeredAt : Option Int

/-- Observable outcome of `handle_webhook`: HTTP status, whether
`execute_workflow_task.delay` was called, and the trigger row after
the request. -/
structure WebhookOut where
  status : Nat
  enqueued : Bool
  triggerAfter : Option WebhookTriggerRec

/-- `verify_hmac_signature(payload, signature, secret)`:
`hmac.compare_digest(f"sha256={expected}", signature)` where
`expected` is the hex HMAC-SHA256 digest (supplied as the oracle
`hmacHex`).  `compare_digest` is constant-time equality. -/
def verifyHmacSignature (hmacHex : String → List Nat → String)
    (payload : List Nat) (signature : String) (secret : String) : Bool :=
  ("sha256=" ++ hmacHex secret payload) == signature

/-- `handle_webhook`: look up the active trigger by path (modelled by
`triggerLookup`), verify the HMAC when a secret is set (`None` and
`""` are both falsy and skip verification), then update
`last_triggered_at` and enqueue. -/
def handleWebhook (hmacHex : String → List Nat → String)
    (triggerLookup : Option WebhookTriggerRec) (signatureHeader : String)
    (payload : List Nat) (now : Int) : WebhookOut :=
  match triggerLookup with
  | none => { status := 404, enqueued := false, triggerAfter := none }
  | some tr =>
    if tr.secret.getD "" = "" then
      { status := 200, enqueued := true,
        triggerAfter := some { tr with lastTriggeredAt := some now } }
    else if verifyHmacSignature hmacHex payload signatureHeader (tr.secret.getD "") then
      { status := 200, enqueued := true,
        triggerAfter := some { tr with lastTriggeredAt := some now } }
    else
      { status := 401, enqueued := false, triggerAfter := some tr }

/-! ## API trigger endpoint (`api/routes/api_trigger.py`) -/

/-- The fields of `UserApiKey` read by the endpoint. -/
structure ApiKeyRec where
  id : String
  userId : String
  scopes : List String
  rateLimit : Nat

/-- The fields of `Workflow` read by the endpoint. -/
structure WorkflowRec where
  id : String
  userId : String
  isActive : Bool

/-- `WorkflowRepository.get_by_user`: `select(Workflow).where(id ==
workflow_id, user_id == user_id)`. -/
def getByUser (db : List WorkflowRec) (wid uid : String) : Option WorkflowRec :=
  db.find? fun w => w.id == wid && w.userId == uid

/-- Response of `api_execute_workflow`: an `HTTPException` with status
and detail, or the accepted payload (task enqueued). -/
inductive ApiResult where
  | err : Nat → String → ApiResult
  | accepted : String → String → Nat → ApiResult

/-- `api_execute_workflow` after `verify_api_key` has succeeded: scope
check, owner-scoped workflow lookup, active check, then enqueue.
`remaining` and `taskId` stand for the rate-limiter read and the task
handle, both consulted only on the success path. -/
def apiExecuteWorkflow (db : List WorkflowRec) (key : ApiKeyRec) (wid : String)
    (remaining : Nat) (taskId : String) : ApiResult :=
  if "workflows:execute" ∈ key.scopes ∨ "*" ∈ key.scopes then
    match getByUser db wid key.userId with
    | none => ApiResult.err 404 "Workflow not found"
    | some w =>
      if w.isActive then ApiResult.accepted taskId wid remaining
      else ApiResult.err 400 "Workflow is not active"
  else ApiResult.err 403 "Insufficient scope"

/-! ## Template resolution (`WorkflowEngine._resolve_template`)

Strings are handled as their character lists; JMESPath evaluation
(`jmespath.search`, an external library) and Python's `str()` are
supplied as oracle parameters. -/

/-- Python whitespace for `str.strip()`. -/
def isPyWs (c : Char) : Bool :=
  c = ' ' || c = '\t' || c = '\n' || c = '\r' || c = '\x0b' || c = '\x0c'

/-- `str.strip()`. -/
def pyStrip (l : List Char) : List Char :=
  ((l.dropWhile isPyWs).reverse.dropWhile isPyWs).reverse

/-- Fueled scanner for `re.findall(r"\{\{([^}]+)\}\}", s)`: leftmost
non-overlapping matches of two braces, one or more non-`}` characters
(captured), two braces.  On a failed match the scan advances one
character.  Every step strictly shortens the input, so fuel equal to
the input length is always sufficient. -/
def scanTplF : Nat → List Char → List (List Char)
  | 0, _ => []
  | _ + 1, [] => []
  | fuel + 1, '{' :: '{' :: rest =>
    (match rest.dropWhile (fun c => c ≠ '}') with
     | '}' :: '}' :: tail =>
       if (rest.takeWhile fun c => c ≠ '}').isEmpty then scanTplF fuel ('{' :: rest)
       else (rest.takeWhile fun c => c ≠ '}') :: scanTplF fuel tail
     | _ => scanTplF fuel ('{' :: rest))
  | fuel + 1, _ :: rest => scanTplF fuel rest

/-- `re.findall(r"\{\{([^}]+)\}\}", s)` on a character list. -/
def scanTpl (l : List Char) : List (List Char) := scanTplF l.length l

/-- The literal template text `{{m}}` for a captured expression `m`. -/
def tplChars (m : List Char) : List Char := '{' :: '{' :: (m ++ ['}', '}'])

/-- Fueled Python `str.replace(pat, rep)`: all non-overlapping
occurrences, left to right (the resolver only ever calls it with a
non-empty pattern, so every step strictly shortens the input and fuel
equal to the input length is always sufficient). -/
def pyReplaceF (pat rep : List Char) : Nat → List Char → List Char
  | 0, l => l
  | _ + 1, [] => []
  | fuel + 1, c :: rest =>
    if pat ≠ [] ∧ (c :: rest).take pat.length = pat then
      rep ++ pyReplaceF pat rep fuel ((c :: rest).drop pat.length)
    else
      c :: pyReplaceF pat rep fuel rest

/-- Python `str.replace(pat, rep)` on character lists. -/
def pyReplace (pat rep l : List Char) : List Char :=
  pyReplaceF pat rep l.length l

/-- Oracles for the external pieces of the resolver: `jmSearch e cd`
models `jmespath.search(e, context_dict)` (`Except.error` models a
raised exception, `Value.null` models a `None` result) and `pyStr`
models Python's `str()`. -/
structure PyEnv where
  jmSearch : List Char → List (String × Value) → Except String Value
  pyStr : Value → List Char

/-- One step of the splice loop: resolve `{{m}}` and substitute its
stringified value (`""` for `None` and for a raised exception). -/
def spliceOne (env : PyEnv) (cd : List (String × Value)) (res : List Char)
    (m : List Char) : List Char :=
  match env.jmSearch (pyStrip m) cd with
  | Except.ok v =>
    pyReplace (tplChars m) (match v with | Value.null => [] | w => env.pyStr w) res
  | Except.error _ => pyReplace (tplChars m) [] res

/-- `WorkflowEngine._resolve_template(template, context)`.  A
non-string input is returned unchanged; with no `{{…}}` match the
string is returned unchanged; a single match spanning the whole string
returns the raw JMESPath value of the stripped expression (`None` on a
raised exception); otherwise each match is resolved and spliced into
the text. -/
def resolveTemplate (env : PyEnv) (template : Value) (ctx : Ctx) : Value :=
  match template with
  | Value.str s =>
    match scanTpl s.toList with
    | [] => Value.str s
    | [m] =>
      if s.toList = tplChars m then
        match env.jmSearch (pyStrip m) (toDict ctx) with
        | Except.ok v => v
        | Except.error _ => Value.null
      else
        Value.str (String.mk ([m].foldl (spliceOne env (toDict ctx)) s.toList))
    | ms =>
      Value.str (String.mk (ms.foldl (spliceOne env (toDict ctx)) s.toList))
  | v => v

/-- Classifier for `done` events. -/
def isDone : ChatEv → Bool
  | ChatEv.done => true
  | _ => false

/-- Classifier for `error` events. -/
def isErrorEv : ChatEv → Bool
  | ChatEv.error _ => true
  | _ => false

/-! ## Helper lemmas on the dict model -/

theorem dget_dset_self (d : List (String × Value)) (k : String) (v : Value) :
    dget (dset d k v) k = some v := by
  induction d with
  | nil => simp [dset, dget]
  | cons p rest ih =>
    obtain ⟨k1, v1⟩ := p
    by_cases h : k1 = k <;> simp [dset, dget, h, ih]

theorem dget_dset_ne (d : List (String × Value)) (k k' : String) (v : Value)
    (h : k' ≠ k) : dget (dset d k v) k' = dget d k' := by
  induction d with
  | nil => simp [dset, dget, Ne.symm h]
  | cons p rest ih =>
    obtain ⟨k1, v1⟩ := p
    by_cases h1 : k1 = k
    · subst h1
      simp [dset, dget, Ne.symm h]
    · by_cases h2 : k1 = k' <;> simp [dset, dget, h, h1, h2, ih]

theorem dget_eq_none_of_not_mem (d : List (String × Value)) (k : String)
    (h : k ∉ d.map Prod.fst) : dget d k = none := by
  induction d with
  | nil => simp [dget]
  | cons p rest ih =>
    obtain ⟨k1, v1⟩ := p
    simp only [List.map_cons, List.mem_cons] at h
    push_neg at h
    simp [dget, Ne.symm h.1, ih h.2]

theorem dget_foldl_dset (results : List (String × Value)) (base : List (String × Value))
    (k : String) (h : (results.map Prod.fst).Nodup) :
    dget (results.foldl (fun d kv => dset d kv.1 kv.2) base) k =
      match dget results k with
      | some v => some v
      | none => dget base k := by
  induction results generalizing base with
  | nil => simp [dget]
  | cons p rest ih =>
    obtain ⟨k1, v1⟩ := p
    simp only [List.map_cons, List.nodup_cons] at h
    simp only [List.foldl_cons]
    rw [ih _ h.2]
    by_cases hk : k1 = k
    · subst hk
      rw [dget_eq_none_of_not_mem rest k1 h.1]
      simp [dget, dget_dset_self]
    · simp [dget, hk, dget_dset_ne base k1 k v1 (Ne.symm hk)]

example :
    buildDag [⟨"a"⟩, ⟨"b"⟩] [⟨some "a", some "b"⟩] = [("a", []), ("b", ["a"])] := by
  decide

example :
    topoSort (buildDag [⟨"a"⟩, ⟨"b"⟩, ⟨"c"⟩]
      [⟨some "a", some "b"⟩, ⟨some "b", some "c"⟩, ⟨some "c", some "a"⟩]) =
    Except.error circularMsg := rfl

example :
    topoSort (buildDag [⟨"b"⟩, ⟨"a"⟩] [⟨some "a", some "b"⟩]) =
    Except.ok ["a", "b"] := rfl

/-! ## C1: failure-path contents of `node_results` -/

/-- C1: concrete evaluation of the failure path of
`WorkflowEngine.execute`.  In the workflow `a → b` where `a` succeeds
with result `"va"` and `b` raises `"boom"`, the returned execution is
`failed` with `error = "boom"`, but `node_results` is
`context._results` — the raw result of `a` only: node `b` has no
entry at all (the locally built `{status: failed, error}` record is
discarded), and node `a` is mapped to its raw result, not to a
`{status: completed, result}` record. -/
theorem workflow_node_failure_records_raw_results :
    execute [{ id := "a" }, { id := "b" }] [{ source := some "a", target := some "b" }]
        Value.null
        (fun nid _ => if nid = "a" then Except.ok (Value.str "va") else Except.error "boom") =
      { status := "failed", nodeResults := [("a", Value.str "va")], error := some "boom" } ∧
    dget [("a", Value.str "va")] "b" = none ∧
    dget [("a", Value.str "va")] "a" ≠ some (wrapCompleted (Value.str "va")) := by
  refine ⟨rfl, rfl, ?_⟩
  simp [dget, wrapCompleted]

/-! ## C6: the tool loop makes at most five LLM calls -/

theorem chatRun_calls_le (llm : List Msg → LLMResp) (exec : ToolCallE → ToolResultE)
    (dumps : ToolResultE → String) :
    ∀ (n : Nat) (msgs : List Msg) (last : String),
      (chatRun llm exec dumps n msgs last).1 ≤ n := by
  intro n
  induction n with
  | zero => intro msgs last; simp [chatRun]
  | succ n ih =>
    intro msgs last
    simp only [chatRun]
    split
    · omega
    · have := ih (msgs ++ (llm msgs).toolCalls.flatMap fun tc => toolMsgs dumps tc (exec tc))
        (llm msgs).content
      omega

theorem streamRun_calls_le (llm : List Msg → LLMResp) (exec : ToolCallE → ToolResultE)
    (dumps : ToolResultE → String) :
    ∀ (n : Nat) (msgs : List Msg), (streamRun llm exec dumps n msgs).2 ≤ n := by
  intro n
  induction n with
  | zero => intro msgs; simp [streamRun]
  | succ n ih =>
    intro msgs
    simp only [streamRun]
    split
    · omega
    · have := ih (msgs ++ (llm msgs).toolCalls.flatMap fun tc => toolMsgs dumps tc (exec tc))
      omega

/-- C6: for every behaviour of the LLM and of the tools, both the
non-streaming `chat` loop and the `chat_stream_with_tools` loop make
at most `MAX_TOOL_ITERATIONS = 5` LLM calls in one turn. -/
theorem tool_loop_llm_calls_le_five :
    ∀ (llm : List Msg → LLMResp) (exec : ToolCallE → ToolResultE)
      (dumps : ToolResultE → String) (msgs : List Msg) (last : String),
      maxToolIterations = 5 ∧
      (chatRun llm exec dumps maxToolIterations msgs last).1 ≤ 5 ∧
      (streamRun llm exec dumps maxToolIterations msgs).2 ≤ 5 :=
  fun llm exec dumps msgs last =>
    ⟨rfl, chatRun_calls_le llm exec dumps maxToolIterations msgs last,
      streamRun_calls_le llm exec dumps maxToolIterations msgs⟩

/-! ## C8: webhook requests with a bad HMAC are rejected -/

/-- C8: for a webhook trigger with a (non-empty) secret, a request
whose `X-Webhook-Signature` header differs from
`sha256=HEX(HMAC_SHA256(secret, raw_body))` gets a 401 response, no
job is enqueued, and the trigger row (in particular
`last_triggered_at`) is unchanged. -/
theorem webhook_bad_hmac_rejected (hmacHex : String → List Nat → String)
    (tr : WebhookTriggerRec) (sig : String) (payload : List Nat) (now : Int)
    (s : String) (hsec : tr.secret = some s) (hne : s ≠ "")
    (hbad : sig ≠ "sha256=" ++ hmacHex s payload) :
    handleWebhook hmacHex (some tr) sig payload now =
      { status := 401, enqueued := false, triggerAfter := some tr } := by
  simp [handleWebhook, hsec, hne, verifyHmacSignature, Ne.symm hbad]

theorem webhook_bad_hmac_rejected_witness :
    handleWebhook (fun _ _ => "aa")
        (some { workflowId := "w", secret := some "s", lastTriggeredAt := some 5 })
        "bad" [1] 99 =
      { status := 401, enqueued := false,
        triggerAfter := some { workflowId := "w", secret := some "s", lastTriggeredAt := some 5 } } :=
  webhook_bad_hmac_rejected (fun _ _ => "aa") _ "bad" [1] 99 "s" rfl (by decide) (by decide)

/-! ## C9: cross-tenant workflow ids are indistinguishable from absent ids -/

/-- C9: when no workflow with the requested id belongs to the caller
(in particular when the id belongs to a different user, in any state),
`api_execute_workflow` behaves exactly as it does on an empty workflow
table, and with a valid scope that behaviour is the constant 404
"Workflow not found" response — so the caller cannot distinguish
another tenant's workflow from a nonexistent one, and no job is
enqueued. -/
theorem cross_tenant_execute_indistinguishable (db : List WorkflowRec) (key : ApiKeyRec)
    (wid : String) (remaining : Nat) (taskId : String)
    (hno : ∀ w ∈ db, w.id = wid → w.userId ≠ key.userId) :
    apiExecuteWorkflow db key wid remaining taskId =
      apiExecuteWorkflow [] key wid remaining taskId ∧
    (("workflows:execute" ∈ key.scopes ∨ "*" ∈ key.scopes) →
      apiExecuteWorkflow db key wid remaining taskId =
        ApiResult.err 404 "Workflow not found") := by
  have hfind : getByUser db wid key.userId = none := by
    rw [getByUser, List.find?_eq_none]
    intro w hw hp
    simp only [Bool.and_eq_true, beq_iff_eq] at hp
    exact hno w hw hp.1 hp.2
  have hempty : getByUser [] wid key.userId = none := rfl
  by_cases hscope : "workflows:execute" ∈ key.scopes ∨ "*" ∈ key.scopes <;>
    simp [apiExecuteWorkflow, hfind, hempty, hscope]

theorem cross_tenant_execute_indistinguishable_witness :
    apiExecuteWorkflow [{ id := "w1", userId := "alice", isActive := true }]
        { id := "k", userId := "bob", scopes := ["*"], rateLimit := 100 } "w1" 7 "t" =
      apiExecuteWorkflow []
        { id := "k", userId := "bob", scopes := ["*"], rateLimit := 100 } "w1" 7 "t" ∧
    (("workflows:execute" ∈ ["*"] ∨ "*" ∈ ["*"]) →
      apiExecuteWorkflow [{ id := "w1", userId := "alice", isActive := true }]
          { id := "k", userId := "bob", scopes := ["*"], rateLimit := 100 } "w1" 7 "t" =
        ApiResult.err 404 "Workflow not found") :=
  cross_tenant_execute_indistinguishable
    [{ id := "w1", userId := "alice", isActive := true }]
    { id := "k", userId := "bob", scopes := ["*"], rateLimit := 100 } "w1" 7 "t"
    (by decide)

/-! ## C10: node results shadow the trigger payload in the context dict -/

/-- C10: the context dict used for template and JMESPath resolution is
the trigger payload under key `"trigger"` updated with the node
results keyed by node id, node results taking precedence; hence in the
workflow `trigger → b` where the node named `"trigger"` completes with
result `v`, node `b` is executed against the context whose `_results`
map `"trigger"` to `v`, which shadows the trigger payload in
`to_dict`. -/
theorem context_trigger_key_shadowed :
    (∀ (td : Value) (results : List (String × Value)),
        (results.map Prod.fst).Nodup →
        dget (toDict { trigger := td, results := results }) "trigger" =
          some ((dget results "trigger").getD td)) ∧
    (∀ (td : Value) (f : String → Ctx → Except String Value) (v : Value),
        f "trigger" { trigger := td, results := [] } = Except.ok v →
        execute [{ id := "trigger" }, { id := "b" }]
            [{ source := some "trigger", target := some "b" }] td f =
          match f "b" { trigger := td, results := [("trigger", v)] } with
          | Except.ok w =>
            { status := "completed",
              nodeResults := [("trigger", wrapCompleted v), ("b", wrapCompleted w)],
              error := none }
          | Except.error e =>
            { status := "failed", nodeResults := [("trigger", v)], error := some e }) := by
  constructor
  · intro td results h
    rw [toDict, dget_foldl_dset results _ _ h]
    cases hres : dget results "trigger" <;> simp [hres, dget]
  · intro td f v hv
    have htopo :
        topoSort (buildDag [{ id := "trigger" }, { id := "b" }]
          [{ source := some "trigger", target := some "b" }]) =
        Except.ok ["trigger", "b"] := rfl
    simp only [execute, htopo]
    cases hb : f "b" { trigger := td, results := [("trigger", v)] } with
    | ok w => simp [runNodes, dset, hv, hb]
    | error e => simp [runNodes, dset, hv, hb]

theorem context_trigger_key_shadowed_witness :
    dget (toDict { trigger := Value.int 1, results := [("trigger", Value.int 2)] }) "trigger" =
      some (Value.int 2) ∧
    execute [{ id := "trigger" }, { id := "b" }]
        [{ source := some "trigger", target := some "b" }] (Value.int 1)
        (fun _ _ => Except.ok (Value.int 7)) =
      { status := "completed",
        nodeResults := [("trigger", wrapCompleted (Value.int 7)),
                        ("b", wrapCompleted (Value.int 7))],
        error := none } := by
  constructor
  · exact context_trigger_key_shadowed.1 (Value.int 1) [("trigger", Value.int 2)] (by simp)
  · have h := context_trigger_key_shadowed.2 (Value.int 1)
      (fun _ _ => Except.ok (Value.int 7)) (Value.int 7) rfl
    simpa using h

/-! ## C2: rate limiter window bound -/

/-- C2 counterexample: with `limit = 2` and `window = 3600`, three
calls in the same second (`now = 5` each) are all allowed — the
sorted-set member is `str(now)`, so the second and third `zadd`
overwrite the first entry and `zcard` stays at 1.  Three allowed calls
lie in the rolling window ending at `T = 5`, exceeding the limit 2. -/
theorem rate_limit_same_second_burst_exceeds_limit :
    rlAllowed 2 3600 [5, 5, 5] = [true, true, true] ∧
    allowedInWindow 2 3600 5 [5, 5, 5] = 3 ∧ 2 < 3 := by
  refine ⟨by decide, by decide, by decide⟩

theorem rlAllowedFrom_length (limit : Nat) (window : Int) :
    ∀ (calls s : List Int), (rlAllowedFrom limit window s calls).length = calls.length := by
  intro calls
  induction calls with
  | nil => intro s; simp [rlAllowedFrom]
  | cons t ts ih => intro s; simp [rlAllowedFrom, ih]

theorem rlAllowedFrom_append (limit : Nat) (window t : Int) :
    ∀ (calls s : List Int),
      rlAllowedFrom limit window s (calls ++ [t]) =
        rlAllowedFrom limit window s calls ++
          [decide ((rlEvict (t - window)
              (calls.foldl (fun a u => rlStep window u a) s)).length < limit)] := by
  intro calls
  induction calls with
  | nil => intro s; simp [rlAllowedFrom]
  | cons u ts ih =>
    intro s
    simp only [List.cons_append, rlAllowedFrom, List.foldl_cons]
    rw [show rlAdd u (rlEvict (u - window) s) = rlStep window u s from rfl,
      List.append_eq, ih]

theorem mem_rlAdd_of_mem (x u : Int) (s : List Int) (h : u ∈ s) : u ∈ rlAdd x s := by
  by_cases hx : x ∈ s <;> simp [rlAdd, hx, h]

theorem mem_rlAdd_self (x : Int) (s : List Int) : x ∈ rlAdd x s := by
  by_cases hx : x ∈ s <;> simp [rlAdd, hx]

theorem mem_rlState (window : Int) :
    ∀ (l : List Int), List.Pairwise (· < ·) l → ∀ u ∈ l,
      (∀ x ∈ l, u < 0 ∨ x - window < u) → u ∈ rlState window l := by
  intro l
  induction l using List.reverseRecOn with
  | nil => intro _ u hu; simp at hu
  | append_singleton l x ih =>
    intro hpw u hu hsafe
    rw [List.pairwise_append] at hpw
    obtain ⟨hl, -, hlt⟩ := hpw
    rw [rlState, List.foldl_append]
    show u ∈ rlStep window x (rlState window l)
    rw [List.mem_append] at hu
    rcases hu with hu | hu
    · have hin : u ∈ rlState window l :=
        ih hl u hu (fun y hy => hsafe y (List.mem_append.mpr (Or.inl hy)))
      have hsx : u < 0 ∨ x - window < u :=
        hsafe x (List.mem_append.mpr (Or.inr (List.mem_singleton.mpr rfl)))
      apply mem_rlAdd_of_mem
      rw [rlEvict, List.mem_filter]
      refine ⟨hin, ?_⟩
      simp only [decide_eq_true_eq]
      omega
    · rw [List.mem_singleton] at hu
      subst hu
      exact mem_rlAdd_self u _

theorem zip_filter_le (q : Int → Bool) :
    ∀ (l : List Int) (d : List Bool),
      ((l.zip d).filter fun p => p.2 && q p.1).length ≤ (l.filter fun u => q u).length := by
  intro l
  induction l with
  | nil => intro d; simp
  | cons u ts ih =>
    intro d
    cases d with
    | nil => exact Nat.zero_le _
    | cons b d =>
      simp only [List.zip_cons_cons, List.filter_cons]
      by_cases hb : (b && q u) = true
      · have hq : q u = true := by
          have hb2 := hb
          rw [Bool.and_eq_true] at hb2
          exact hb2.2
        rw [if_pos hb, if_pos hq]
        have := ih d
        simp only [List.length_cons]
        omega
      · rw [if_neg hb]
        have := ih d
        by_cases hq : q u = true
        · rw [if_pos hq]
          simp only [List.length_cons]
          omega
        · rw [if_neg hq]
          omega

/-- C2 amended: for any sequence of `check_rate_limit` calls at
strictly increasing timestamps (no two calls within the same second),
at most `limit` calls whose timestamps fall in any rolling window
`(T − window, T]` return `allowed = true`.  (The original claim is
refuted above for same-second calls: `zadd` keys entries by
`str(now)`, collapsing a same-second burst to one entry.) -/
theorem rate_limit_window_bound_strict_times (limit : Nat) (window T : Int) :
    ∀ (calls : List Int), List.Chain' (· < ·) calls →
      allowedInWindow limit window T calls ≤ limit := by
  have aux : ∀ (calls : List Int), List.Pairwise (· < ·) calls →
      allowedInWindow limit window T calls ≤ limit := by
    intro calls
    induction calls using List.reverseRecOn with
    | nil => intro _; simp [allowedInWindow, rlAllowed, rlAllowedFrom]
    | append_singleton l t ih =>
      intro hpw
      rw [List.pairwise_append] at hpw
      obtain ⟨hl, -, hlt⟩ := hpw
      have hlen : (rlAllowedFrom limit window [] l).length = l.length :=
        rlAllowedFrom_length limit window l []
      rw [allowedInWindow, rlAllowed, rlAllowedFrom_append, List.zip_append hlen.symm,
        List.filter_append, List.length_append]
      have hstate : l.foldl (fun a u => rlStep window u a) [] = rlState window l := rfl
      rw [hstate]
      set dec := decide ((rlEvict (t - window) (rlState window l)).length < limit) with hdec
      by_cases hpass : (dec && decide (T - window < t) && decide (t ≤ T)) = true
      · simp only [Bool.and_eq_true, decide_eq_true_eq] at hpass
        obtain ⟨⟨hdect, htw⟩, htT⟩ := hpass
        have hcnt : ((l.zip (rlAllowedFrom limit window [] l)).filter
            fun p => p.2 && decide (T - window < p.1) && decide (p.1 ≤ T)).length <
            limit := by
          have h1 : ((l.zip (rlAllowedFrom limit window [] l)).filter
              fun p => p.2 && decide (T - window < p.1) && decide (p.1 ≤ T)).length ≤
              (l.filter fun u => decide (T - window < u) && decide (u ≤ T)).length := by
            have := zip_filter_le (fun u => decide (T - window < u) && decide (u ≤ T)) l
              (rlAllowedFrom limit window [] l)
            simpa [Bool.and_assoc] using this
          have h2 : (l.filter fun u => decide (T - window < u) && decide (u ≤ T)).length ≤
              (rlEvict (t - window) (rlState window l)).length := by
            apply List.Subperm.length_le
            apply List.subperm_of_subset
            · exact (hl.imp fun hab => ne_of_lt hab).filter _
            · intro u hu
              rw [List.mem_filter] at hu
              obtain ⟨hul, hq⟩ := hu
              simp only [Bool.and_eq_true, decide_eq_true_eq] at hq
              have hmem : u ∈ rlState window l := by
                apply mem_rlState window l hl u hul
                intro x hx
                right
                have hxt : x < t := hlt x hx t (List.mem_singleton.mpr rfl)
                omega
              rw [rlEvict, List.mem_filter]
              refine ⟨hmem, ?_⟩
              simp only [decide_eq_true_eq]
              omega
          have h3 : (rlEvict (t - window) (rlState window l)).length < limit := by
            rw [hdec] at hdect
            exact of_decide_eq_true hdect
          omega
        have hsingle : (([t].zip [dec]).filter
            fun p => p.2 && decide (T - window < p.1) && decide (p.1 ≤ T)).length = 1 := by
          show (([(t, dec)]).filter
            fun p => p.2 && decide (T - window < p.1) && decide (p.1 ≤ T)).length = 1
          simp only [List.filter_cons, List.filter_nil]
          simp [hdect, htw, htT]
        rw [hsingle]
        omega
      · have hsingle : (([t].zip [dec]).filter
            fun p => p.2 && decide (T - window < p.1) && decide (p.1 ≤ T)).length = 0 := by
          show (([(t, dec)]).filter
            fun p => p.2 && decide (T - window < p.1) && decide (p.1 ≤ T)).length = 0
          simp only [List.filter_cons, List.filter_nil]
          rw [Bool.not_eq_true] at hpass
          simp [hpass]
        rw [hsingle]
        have := ih hl
        rw [allowedInWindow, rlAllowed] at this
        omega
  intro calls hchain
  exact aux calls (List.chain'_iff_pairwise.mp hchain)

theorem rate_limit_window_bound_strict_times_witness :
    allowedInWindow 3 3600 4 [1, 2, 3, 4] ≤ 3 :=
  rate_limit_window_bound_strict_times 3 3600 4 [1, 2, 3, 4]
    (by norm_num [List.chain'_cons])

/-! ## C3: terminal events of `chat_stream_with_tools` -/

/-- C3 counterexample: with an LLM that returns a tool call on every
iteration, the stream produced by `chat_stream_with_tools` exhausts
the iteration cap and ends after the last `tool_result`: it contains
no `done` event (and no `error` event), contradicting the claim that
such a stream ends with a terminal `done{}`. -/
theorem stream_cap_exhaustion_lacks_terminal_event :
    (((streamRun
        (fun _ => { content := "", toolCalls := [{ id := "1", name := "t", args := Value.null }] })
        (fun _ => { success := true, output := Value.null, error := none })
        (fun _ => "r") maxToolIterations []).1).getLast? =
      some (ChatEv.toolResult "1" { success := true, output := Value.null, error := none })) ∧
    (((streamRun
        (fun _ => { content := "", toolCalls := [{ id := "1", name := "t", args := Value.null }] })
        (fun _ => { success := true, output := Value.null, error := none })
        (fun _ => "r") maxToolIterations []).1).filter isDone).length = 0 ∧
    (((streamRun
        (fun _ => { content := "", toolCalls := [{ id := "1", name := "t", args := Value.null }] })
        (fun _ => { success := true, output := Value.null, error := none })
        (fun _ => "r") maxToolIterations []).1).filter isErrorEv).length = 0 :=
  ⟨rfl, rfl, rfl⟩

theorem pairs_filter_done (exec : ToolCallE → ToolResultE) :
    ∀ (tcs : List ToolCallE),
      ((tcs.flatMap fun tc =>
        [ChatEv.toolCall tc, ChatEv.toolResult tc.id (exec tc)]).filter isDone) = [] := by
  intro tcs
  induction tcs with
  | nil => rfl
  | cons tc rest ih => simp [isDone, ih]

theorem pairs_filter_error (exec : ToolCallE → ToolResultE) :
    ∀ (tcs : List ToolCallE),
      ((tcs.flatMap fun tc =>
        [ChatEv.toolCall tc, ChatEv.toolResult tc.id (exec tc)]).filter isErrorEv) = [] := by
  intro tcs
  induction tcs with
  | nil => rfl
  | cons tc rest ih => simp [isErrorEv, ih]

theorem pairs_getLast (exec : ToolCallE → ToolResultE) :
    ∀ (tcs : List ToolCallE), tcs ≠ [] →
      ∃ i r, ((tcs.flatMap fun tc =>
        [ChatEv.toolCall tc, ChatEv.toolResult tc.id (exec tc)]).getLast? =
          some (ChatEv.toolResult i r)) := by
  intro tcs
  induction tcs with
  | nil => intro h; exact absurd rfl h
  | cons tc rest ih =>
    intro _
    cases rest with
    | nil => exact ⟨tc.id, exec tc, rfl⟩
    | cons tc2 rest2 =>
      obtain ⟨i, r, hr⟩ := ih (by simp)
      refine ⟨i, r, ?_⟩
      rw [List.flatMap_cons, List.getLast?_append_of_ne_nil _ (by simp)]
      exact hr

/-- C3 amended: a stream produced by `chat_stream_with_tools` never
contains an `error` event and contains at most one `done` event; when
a `done` event occurs it is the final event of the stream (normal
termination: some iteration within the cap returned no tool calls);
when no `done` event occurs (the cap was exhausted with the model
still returning tool calls) the stream simply ends after the last
`tool_result` with no terminal event.  Error events for exceptions are
synthesised by the SSE route layer, not by this generator. -/
theorem stream_terminal_event_dichotomy (llm : List Msg → LLMResp)
    (exec : ToolCallE → ToolResultE) (dumps : ToolResultE → String) :
    ∀ (n : Nat) (msgs : List Msg),
      (((streamRun llm exec dumps n msgs).1).filter isErrorEv).length = 0 ∧
      (((streamRun llm exec dumps n msgs).1).filter isDone).length ≤ 1 ∧
      ((((streamRun llm exec dumps n msgs).1).filter isDone).length = 1 →
        ((streamRun llm exec dumps n msgs).1).getLast? = some ChatEv.done) ∧
      ((((streamRun llm exec dumps n msgs).1).filter isDone).length = 0 →
        (streamRun llm exec dumps n msgs).1 = [] ∨
          ∃ i r, ((streamRun llm exec dumps n msgs).1).getLast? =
            some (ChatEv.toolResult i r)) := by
  intro n
  induction n with
  | zero =>
    intro msgs
    refine ⟨rfl, by simp [streamRun], ?_, ?_⟩
    · intro h
      simp [streamRun] at h
    · intro _
      left
      rfl
  | succ n ih =>
    intro msgs
    by_cases hempty : (llm msgs).toolCalls.isEmpty = true
    · have hevs : (streamRun llm exec dumps (n + 1) msgs).1 =
          (if (llm msgs).content ≠ "" then [ChatEv.content (llm msgs).content] else []) ++
            [ChatEv.done] := by
        simp [streamRun, hempty]
      by_cases hc : (llm msgs).content ≠ ""
      · rw [hevs, if_pos hc]
        refine ⟨by simp [isErrorEv, isDone], by simp [isErrorEv, isDone], ?_, ?_⟩
        · intro _
          rw [List.getLast?_append_cons]
          rfl
        · intro h
          simp [isDone] at h
      · rw [hevs, if_neg hc]
        refine ⟨rfl, by simp [isDone], ?_, ?_⟩
        · intro _
          rfl
        · intro h
          simp [isDone] at h
    · have hne : (llm msgs).toolCalls ≠ [] := by
        simpa [List.isEmpty_iff] using hempty
      have hevs : (streamRun llm exec dumps (n + 1) msgs).1 =
          ((llm msgs).toolCalls.flatMap fun tc =>
            [ChatEv.toolCall tc, ChatEv.toolResult tc.id (exec tc)]) ++
          (streamRun llm exec dumps n
            (msgs ++ (llm msgs).toolCalls.flatMap fun tc => toolMsgs dumps tc (exec tc))).1 := by
        simp [streamRun, hempty]
      obtain ⟨ih1, ih2, ih3, ih4⟩ :=
        ih (msgs ++ (llm msgs).toolCalls.flatMap fun tc => toolMsgs dumps tc (exec tc))
      rw [hevs]
      rw [List.filter_append, List.filter_append, pairs_filter_done, pairs_filter_error]
      simp only [List.nil_append, List.length_nil]
      refine ⟨ih1, ih2, ?_, ?_⟩
      · intro h1
        have hlast := ih3 h1
        have hrne : (streamRun llm exec dumps n
            (msgs ++ (llm msgs).toolCalls.flatMap fun tc => toolMsgs dumps tc (exec tc))).1 ≠ [] := by
          intro hnil
          rw [hnil] at hlast
          simp at hlast
        rw [List.getLast?_append_of_ne_nil _ hrne]
        exact hlast
      · intro h0
        rcases ih4 h0 with hnil | ⟨i, r, hr⟩
        · rw [hnil, List.append_nil]
          exact Or.inr (pairs_getLast exec _ hne)
        · have hrne : (streamRun llm exec dumps n
              (msgs ++ (llm msgs).toolCalls.flatMap fun tc => toolMsgs dumps tc (exec tc))).1 ≠ [] := by
            intro hnil
            rw [hnil] at hr
            simp at hr
          right
          refine ⟨i, r, ?_⟩
          rw [List.getLast?_append_of_ne_nil _ hrne]
          exact hr

theorem stream_terminal_event_dichotomy_witness :
    ((streamRun (fun _ => { content := "hi", toolCalls := [] })
        (fun _ => { success := true, output := Value.null, error := none })
        (fun _ => "r") maxToolIterations []).1).getLast? = some ChatEv.done :=
  (stream_terminal_event_dichotomy (fun _ => { content := "hi", toolCalls := [] })
    (fun _ => { success := true, output := Value.null, error := none })
    (fun _ => "r") maxToolIterations []).2.2.1 rfl

/-! ## C7: whole-string template resolution -/

theorem dropWhile_all_append (p : Char → Bool) :
    ∀ (e t : List Char), (∀ c ∈ e, p c = true) →
      (e ++ t).dropWhile p = t.dropWhile p := by
  intro e t h
  induction e with
  | nil => rfl
  | cons c rest ih =>
    have hc : p c = true := h c (List.mem_cons_self c rest)
    simp only [List.cons_append, List.dropWhile_cons, hc, if_true]
    exact ih fun d hd => h d (List.mem_cons_of_mem c hd)

theorem takeWhile_all_append (p : Char → Bool) :
    ∀ (e t : List Char), (∀ c ∈ e, p c = true) →
      (e ++ t).takeWhile p = e ++ t.takeWhile p := by
  intro e t h
  induction e with
  | nil => rfl
  | cons c rest ih =>
    have hc : p c = true := h c (List.mem_cons_self c rest)
    simp only [List.cons_append, List.takeWhile_cons, hc, if_true]
    rw [ih fun d hd => h d (List.mem_cons_of_mem c hd)]

theorem scanTplF_nil (n : Nat) : scanTplF n [] = [] := by
  cases n <;> rfl

theorem scanTplF_step (fuel : Nat) (rest : List Char) :
    scanTplF (fuel + 1) ('{' :: '{' :: rest) =
      match rest.dropWhile (fun c => c ≠ '}') with
      | '}' :: '}' :: tail =>
        if (rest.takeWhile fun c => c ≠ '}').isEmpty then scanTplF fuel ('{' :: rest)
        else (rest.takeWhile fun c => c ≠ '}') :: scanTplF fuel tail
      | _ => scanTplF fuel ('{' :: rest) := rfl

/-- The scanner finds exactly the one capture `e` in the whole-string
template `{{e}}`, for a non-empty expression `e` free of `}`. -/
theorem scanTpl_whole (e : List Char) (hne : e ≠ []) (hnb : '}' ∉ e) :
    scanTpl (tplChars e) = [e] := by
  have hall : ∀ c ∈ e, (fun c => decide (c ≠ '}')) c = true := by
    intro c hc
    simp only [decide_eq_true_eq]
    intro hceq
    rw [hceq] at hc
    exact hnb hc
  have hdrop : (e ++ ['}', '}']).dropWhile (fun c => c ≠ '}') = ['}', '}'] := by
    rw [dropWhile_all_append _ _ _ hall]
    rfl
  have htake : (e ++ ['}', '}']).takeWhile (fun c => c ≠ '}') = e := by
    rw [takeWhile_all_append _ _ _ hall]
    simp
  have hlen : (tplChars e).length = (e.length + 3) + 1 := by
    simp only [tplChars, List.length_cons, List.length_append, List.length_nil]
  show scanTplF (tplChars e).length (tplChars e) = [e]
  rw [hlen, show tplChars e = '{' :: '{' :: (e ++ ['}', '}']) from rfl,
    scanTplF_step, hdrop, htake]
  show (if e.isEmpty then scanTplF (e.length + 3) ('{' :: (e ++ ['}', '}']))
      else e :: scanTplF (e.length + 3) []) = [e]
  rw [if_neg (by simp [List.isEmpty_iff, hne]), scanTplF_nil]

/-- C7: for every context and every whole-string template `{{EXPR}}`
(with `EXPR` a non-empty, brace-free, already-stripped expression),
`_resolve_template` returns exactly the raw JMESPath value of `EXPR`
over the context dict, whatever it is — its type, including `null`,
is preserved (`null` is also returned when the evaluation raises);
and a non-string input is returned unchanged. -/
theorem whole_string_template_preserves_type (env : PyEnv) (ctx : Ctx) (e : List Char)
    (hne : e ≠ []) (hnb : '}' ∉ e) (hst : pyStrip e = e) :
    resolveTemplate env (Value.str (String.mk (tplChars e))) ctx =
      (match env.jmSearch e (toDict ctx) with
       | Except.ok v => v
       | Except.error _ => Value.null) ∧
    (∀ v : Value, (∀ s, v ≠ Value.str s) → resolveTemplate env v ctx = v) := by
  constructor
  · have htl : (String.mk (tplChars e)).toList = tplChars e := rfl
    simp only [resolveTemplate, htl, scanTpl_whole e hne hnb, eq_self_iff_true,
      if_true, hst]
  · intro v hv
    cases v with
    | str s => exact absurd rfl (hv s)
    | null => rfl
    | bool b => rfl
    | int n => rfl
    | list xs => rfl
    | obj kvs => rfl

theorem whole_string_template_preserves_type_witness :
    resolveTemplate
        { jmSearch := fun _ _ => Except.ok (Value.int 42), pyStr := fun _ => [] }
        (Value.str (String.mk (tplChars "trigger.n".toList)))
        { trigger := Value.obj [("n", Value.int 42)], results := [] } =
      Value.int 42 :=
  (whole_string_template_preserves_type
    { jmSearch := fun _ _ => Except.ok (Value.int 42), pyStr := fun _ => [] }
    { trigger := Value.obj [("n", Value.int 42)], results := [] }
    "trigger.n".toList (by decide) (by decide) (by decide)).1

/-! ## Structural lemmas about `_build_dag` -/

theorem lookup_cons_self {β : Type} (k : String) (v : β) (rest : List (String × β)) :
    List.lookup k ((k, v) :: rest) = some v := by
  simp [List.lookup]

theorem lookup_cons_ne {β : Type} (k m : String) (v : β) (rest : List (String × β))
    (h : m ≠ k) : List.lookup m ((k, v) :: rest) = List.lookup m rest := by
  simp [List.lookup, beq_eq_false_iff_ne.mpr h]

theorem lookup_eq_some_of_mem_nodup (dag : List (String × List String))
    (m : String) (ds : List String) (hk : (dagKeys dag).Nodup)
    (hm : (m, ds) ∈ dag) : List.lookup m dag = some ds := by
  induction dag with
  | nil => simp at hm
  | cons p rest ih =>
    obtain ⟨k, v⟩ := p
    simp only [dagKeys, List.map_cons, List.nodup_cons] at hk
    rcases List.mem_cons.mp hm with heq | hmem
    · injection heq with h1 h2
      subst h1
      subst h2
      exact lookup_cons_self m ds rest
    · have hne : m ≠ k := by
        intro he
        subst he
        exact hk.1 (List.mem_map.mpr ⟨(m, ds), hmem, rfl⟩)
      rw [lookup_cons_ne k m v rest hne]
      exact ih hk.2 hmem

theorem mem_of_lookup_eq_some (dag : List (String × List String))
    (m : String) (ds : List String) (h : List.lookup m dag = some ds) :
    (m, ds) ∈ dag := by
  induction dag with
  | nil => simp [List.lookup] at h
  | cons p rest ih =>
    obtain ⟨k, v⟩ := p
    by_cases he : m = k
    · subst he
      rw [lookup_cons_self m v rest] at h
      injection h with h1
      subst h1
      exact List.mem_cons_self _ _
    · rw [lookup_cons_ne k m v rest he] at h
      exact List.mem_cons_of_mem _ (ih h)

theorem lookup_isSome_iff_mem_keys (dag : List (String × List String)) (m : String) :
    (List.lookup m dag).isSome = true ↔ m ∈ dagKeys dag := by
  induction dag with
  | nil => simp [List.lookup, dagKeys]
  | cons p rest ih =>
    obtain ⟨k, v⟩ := p
    by_cases he : m = k
    · subst he
      rw [lookup_cons_self m v rest]
      simp [dagKeys]
    · rw [lookup_cons_ne k m v rest he]
      simp only [dagKeys, List.map_cons, List.mem_cons]
      rw [ih]
      simp [dagKeys, he]

theorem mem_keys_of_mem_depsOf (dag : List (String × List String)) (d n : String)
    (h : d ∈ depsOf dag n) : n ∈ dagKeys dag := by
  rw [← lookup_isSome_iff_mem_keys]
  rw [depsOf] at h
  cases hl : List.lookup n dag with
  | none => rw [hl] at h; simp at h
  | some ds => simp [hl]

theorem depsOf_eq_of_mem (dag : List (String × List String)) (m : String)
    (ds : List String) (hk : (dagKeys dag).Nodup) (hm : (m, ds) ∈ dag) :
    depsOf dag m = ds := by
  rw [depsOf, lookup_eq_some_of_mem_nodup dag m ds hk hm]
  rfl

theorem dagKeys_dagAddNode (d : List (String × List String)) (i : String) :
    dagKeys (dagAddNode d i) =
      if i ∈ dagKeys d then dagKeys d else dagKeys d ++ [i] := by
  rw [dagAddNode]
  by_cases h : i ∈ dagKeys d
  · rw [if_pos ((lookup_isSome_iff_mem_keys d i).mpr h), if_pos h]
  · rw [if_neg (by
      intro hs
      exact h ((lookup_isSome_iff_mem_keys d i).mp hs)), if_neg h]
    simp [dagKeys]

theorem dagKeys_appendDep (d : List (String × List String)) (t s : String) :
    dagKeys (appendDep d t s) =
      if t ∈ dagKeys d then dagKeys d else dagKeys d ++ [t] := by
  induction d with
  | nil => simp [appendDep, dagKeys]
  | cons p rest ih =>
    obtain ⟨k, v⟩ := p
    by_cases he : k = t
    · subst he
      simp [appendDep, dagKeys]
    · simp only [appendDep, he, if_false]
      simp only [dagKeys, List.map_cons] at ih ⊢
      rw [ih]
      by_cases hm : t ∈ List.map Prod.fst rest
      · rw [if_pos hm, if_pos (List.mem_cons_of_mem _ hm)]
      · rw [if_neg hm, if_neg (by
          intro hc
          rcases List.mem_cons.mp hc with h1 | h1
          · exact he h1.symm
          · exact hm h1)]
        simp

theorem lookup_appendDep (d : List (String × List String)) (t s n : String) :
    List.lookup n (appendDep d t s) =
      if n = t then
        some (if s ∈ (List.lookup t d).getD [] then (List.lookup t d).getD []
              else (List.lookup t d).getD [] ++ [s])
      else List.lookup n d := by
  induction d with
  | nil =>
    by_cases he : n = t
    · subst he
      show List.lookup n [(n, [s])] = _
      rw [lookup_cons_self, if_pos rfl]
      rfl
    · show List.lookup n [(t, [s])] = _
      rw [lookup_cons_ne _ _ _ _ he, if_neg he]
  | cons p rest ih =>
    obtain ⟨k, v⟩ := p
    by_cases hkt : k = t
    · subst hkt
      have happ : appendDep ((k, v) :: rest) k s =
          (k, if s ∈ v then v else v ++ [s]) :: rest := by
        rw [appendDep, if_pos rfl]
      rw [happ]
      by_cases hn : n = k
      · subst hn
        rw [lookup_cons_self, if_pos rfl, lookup_cons_self]
        rfl
      · rw [lookup_cons_ne _ _ _ _ hn, if_neg hn, lookup_cons_ne _ _ _ _ hn]
    · have happ : appendDep ((k, v) :: rest) t s = (k, v) :: appendDep rest t s := by
        rw [appendDep, if_neg hkt]
      rw [happ]
      by_cases hn : n = k
      · subst hn
        rw [lookup_cons_self, if_neg hkt, lookup_cons_self]
      · rw [lookup_cons_ne _ _ _ _ hn, ih,
          lookup_cons_ne _ _ _ _ (fun h => hkt h.symm), lookup_cons_ne _ _ _ _ hn]

theorem depsOf_appendDep (d : List (String × List String)) (t s n : String) :
    depsOf (appendDep d t s) n =
      if n = t then
        (if s ∈ depsOf d t then depsOf d t else depsOf d t ++ [s])
      else depsOf d n := by
  simp only [depsOf, lookup_appendDep]
  by_cases he : n = t <;> simp [he]

theorem edgeStep_of_eq (dag : List (String × List String)) (e : EdgeDef) (s t : String)
    (hs : e.source = some s) (ht : e.target = some t) :
    edgeStep dag e = if s ≠ "" ∧ t ≠ "" then appendDep dag t s else dag := by
  rw [edgeStep, hs, ht]

theorem edgeStep_src_none (dag : List (String × List String)) (e : EdgeDef)
    (hs : e.source = none) : edgeStep dag e = dag := by
  rw [edgeStep, hs]

theorem edgeStep_tgt_none (dag : List (String × List String)) (e : EdgeDef)
    (ht : e.target = none) : edgeStep dag e = dag := by
  rw [edgeStep, ht]
  cases e.source <;> rfl

theorem depsOf_edgeStep_superset (dag : List (String × List String)) (e : EdgeDef)
    (d n : String) (h : d ∈ depsOf dag n) : d ∈ depsOf (edgeStep dag e) n := by
  cases hs : e.source with
  | none => rw [edgeStep_src_none dag e hs]; exact h
  | some s =>
    cases ht : e.target with
    | none => rw [edgeStep_tgt_none dag e ht]; exact h
    | some t =>
      rw [edgeStep_of_eq dag e s t hs ht]
      by_cases hv : s ≠ "" ∧ t ≠ ""
      · rw [if_pos hv, depsOf_appendDep]
        by_cases hn : n = t
        · subst hn
          by_cases hm : s ∈ depsOf dag n <;> simp [hm, h]
        · rw [if_neg hn]
          exact h
      · rw [if_neg hv]
        exact h

theorem mem_depsOf_edgeStep (dag : List (String × List String)) (e : EdgeDef)
    (d n : String) (h : d ∈ depsOf (edgeStep dag e) n) :
    d ∈ depsOf dag n ∨
      (e.source = some d ∧ e.target = some n ∧ d ≠ "" ∧ n ≠ "") := by
  cases hs : e.source with
  | none => rw [edgeStep_src_none dag e hs] at h; exact Or.inl h
  | some s =>
    cases ht : e.target with
    | none => rw [edgeStep_tgt_none dag e ht] at h; exact Or.inl h
    | some t =>
      rw [edgeStep_of_eq dag e s t hs ht] at h
      by_cases hv : s ≠ "" ∧ t ≠ ""
      · rw [if_pos hv, depsOf_appendDep] at h
        by_cases hn : n = t
        · subst hn
          rw [if_pos rfl] at h
          by_cases hm : s ∈ depsOf dag n
          · rw [if_pos hm] at h
            exact Or.inl h
          · rw [if_neg hm] at h
            rcases List.mem_append.mp h with h1 | h1
            · exact Or.inl h1
            · rw [List.mem_singleton] at h1
              subst h1
              exact Or.inr ⟨rfl, rfl, hv.1, hv.2⟩
        · rw [if_neg hn] at h
          exact Or.inl h
      · rw [if_neg hv] at h
        exact Or.inl h

theorem depsOf_nodesFold (nodes : List NodeDef) (n : String) :
    depsOf (nodesFold nodes) n = [] := by
  have haux : ∀ (l : List NodeDef) (acc : List (String × List String)),
      (∀ p ∈ acc, p.2 = ([] : List String)) →
      ∀ p ∈ l.foldl (fun d nd => dagAddNode d nd.id) acc, p.2 = ([] : List String) := by
    intro l
    induction l with
    | nil => intro acc h p hp; exact h p hp
    | cons nd rest ih =>
      intro acc h p hp
      refine ih (dagAddNode acc nd.id) ?_ p hp
      intro q hq
      rw [dagAddNode] at hq
      by_cases hs : (List.lookup nd.id acc).isSome
      · rw [if_pos hs] at hq
        exact h q hq
      · rw [if_neg hs] at hq
        rcases List.mem_append.mp hq with h1 | h1
        · exact h q h1
        · rw [List.mem_singleton] at h1
          rw [h1]
  rw [depsOf]
  cases hl : List.lookup n (nodesFold nodes) with
  | none => rfl
  | some ds =>
    have := haux nodes [] (by intro q hq; simp at hq) (n, ds)
      (mem_of_lookup_eq_some _ _ _ hl)
    simpa using this

theorem mem_depsOf_buildDag (nodes : List NodeDef) (edges : List EdgeDef)
    (d n : String) (h : d ∈ depsOf (buildDag nodes edges) n) :
    ∃ e ∈ edges, e.source = some d ∧ e.target = some n ∧ d ≠ "" ∧ n ≠ "" := by
  have haux : ∀ (l : List EdgeDef) (dag : List (String × List String)),
      d ∈ depsOf (l.foldl edgeStep dag) n →
      d ∈ depsOf dag n ∨
        ∃ e ∈ l, e.source = some d ∧ e.target = some n ∧ d ≠ "" ∧ n ≠ "" := by
    intro l
    induction l with
    | nil => intro dag h1; exact Or.inl h1
    | cons e rest ih =>
      intro dag h1
      rcases ih (edgeStep dag e) h1 with h2 | h2
      · rcases mem_depsOf_edgeStep dag e d n h2 with h3 | h3
        · exact Or.inl h3
        · exact Or.inr ⟨e, List.mem_cons_self e rest, h3⟩
      · obtain ⟨e2, he2, h3⟩ := h2
        exact Or.inr ⟨e2, List.mem_cons_of_mem e he2, h3⟩
  rcases haux edges (nodesFold nodes) h with h1 | h1
  · rw [depsOf_nodesFold] at h1
    simp at h1
  · exact h1

theorem edge_mem_depsOf (nodes : List NodeDef) (edges : List EdgeDef) (e : EdgeDef)
    (he : e ∈ edges) (s t : String) (hs : e.source = some s) (ht : e.target = some t)
    (hs0 : s ≠ "") (ht0 : t ≠ "") : s ∈ depsOf (buildDag nodes edges) t := by
  obtain ⟨l1, l2, rfl⟩ := List.append_of_mem he
  rw [buildDag, List.foldl_append, List.foldl_cons]
  have hstep : s ∈ depsOf (edgeStep (l1.foldl edgeStep (nodesFold nodes)) e) t := by
    rw [edgeStep_of_eq _ e s t hs ht, if_pos ⟨hs0, ht0⟩, depsOf_appendDep, if_pos rfl]
    by_cases hm : s ∈ depsOf (l1.foldl edgeStep (nodesFold nodes)) t <;> simp [hm]
  have hmono : ∀ (l : List EdgeDef) (dag : List (String × List String)),
      s ∈ depsOf dag t → s ∈ depsOf (l.foldl edgeStep dag) t := by
    intro l
    induction l with
    | nil => intro dag h1; exact h1
    | cons e2 rest ih =>
      intro dag h1
      exact ih (edgeStep dag e2) (depsOf_edgeStep_superset dag e2 s t h1)
  exact hmono l2 _ hstep

theorem goodDag_buildDag (nodes : List NodeDef) (edges : List EdgeDef) :
    (dagKeys (buildDag nodes edges)).Nodup ∧
      ∀ p ∈ buildDag nodes edges, p.2.Nodup := by
  have hnodes : (dagKeys (nodesFold nodes)).Nodup ∧
      ∀ p ∈ nodesFold nodes, p.2.Nodup := by
    have haux : ∀ (l : List NodeDef) (acc : List (String × List String)),
        (dagKeys acc).Nodup → (∀ p ∈ acc, p.2.Nodup) →
        (dagKeys (l.foldl (fun d nd => dagAddNode d nd.id) acc)).Nodup ∧
          ∀ p ∈ l.foldl (fun d nd => dagAddNode d nd.id) acc, p.2.Nodup := by
      intro l
      induction l with
      | nil => intro acc h1 h2; exact ⟨h1, h2⟩
      | cons nd rest ih =>
        intro acc h1 h2
        apply ih
        · rw [dagKeys_dagAddNode]
          by_cases hm : nd.id ∈ dagKeys acc
          · rw [if_pos hm]; exact h1
          · rw [if_neg hm]
            simp [List.nodup_append, h1, hm]
        · intro p hp
          replace hp : p ∈ dagAddNode acc nd.id := hp
          rw [dagAddNode] at hp
          by_cases hsome : (List.lookup nd.id acc).isSome
          · rw [if_pos hsome] at hp
            exact h2 p hp
          · rw [if_neg hsome] at hp
            rcases List.mem_append.mp hp with hq | hq
            · exact h2 p hq
            · rw [List.mem_singleton] at hq
              rw [hq]
              exact List.nodup_nil
    exact haux nodes [] (by simp [dagKeys]) (by simp)
  have hstep : ∀ (e : EdgeDef) (dag : List (String × List String)),
      (dagKeys dag).Nodup → (∀ p ∈ dag, p.2.Nodup) →
      (dagKeys (edgeStep dag e)).Nodup ∧ ∀ p ∈ edgeStep dag e, p.2.Nodup := by
    intro e dag h1 h2
    cases hsrc : e.source with
    | none => rw [edgeStep_src_none dag e hsrc]; exact ⟨h1, h2⟩
    | some s =>
      cases htgt : e.target with
      | none => rw [edgeStep_tgt_none dag e htgt]; exact ⟨h1, h2⟩
      | some t =>
        rw [edgeStep_of_eq dag e s t hsrc htgt]
        by_cases hv : s ≠ "" ∧ t ≠ ""
        · rw [if_pos hv]
          constructor
          · rw [dagKeys_appendDep]
            by_cases hm : t ∈ dagKeys dag
            · rw [if_pos hm]; exact h1
            · rw [if_neg hm]
              simp [List.nodup_append, h1, hm]
          · intro p hp
            clear hnodes
            induction dag with
            | nil =>
              rw [appendDep] at hp
              rw [List.mem_singleton] at hp
              rw [hp]
              simp
            | cons q rest ih =>
              obtain ⟨k, ds⟩ := q
              rw [appendDep] at hp
              by_cases hkt : k = t
              · rw [if_pos hkt] at hp
                rcases List.mem_cons.mp hp with hq | hq
                · rw [hq]
                  have hds : ds.Nodup := h2 (k, ds) (List.mem_cons_self _ _)
                  by_cases hsm : s ∈ ds
                  · simpa [hsm] using hds
                  · simp only [hsm, if_false]
                    simp [List.nodup_append, hds, hsm]
                · exact h2 p (List.mem_cons_of_mem _ hq)
              · rw [if_neg hkt] at hp
                rcases List.mem_cons.mp hp with hq | hq
                · rw [hq]
                  exact h2 (k, ds) (List.mem_cons_self _ _)
                · refine ih ?_ ?_ hq
                  · simp only [dagKeys, List.map_cons, List.nodup_cons] at h1
                    exact h1.2
                  · intro r hr
                    exact h2 r (List.mem_cons_of_mem _ hr)
        · rw [if_neg hv]
          exact ⟨h1, h2⟩
  have haux2 : ∀ (l : List EdgeDef) (dag : List (String × List String)),
      (dagKeys dag).Nodup → (∀ p ∈ dag, p.2.Nodup) →
      (dagKeys (l.foldl edgeStep dag)).Nodup ∧ ∀ p ∈ l.foldl edgeStep dag, p.2.Nodup := by
    intro l
    induction l with
    | nil => intro dag h1 h2; exact ⟨h1, h2⟩
    | cons e rest ih =>
      intro dag h1 h2
      obtain ⟨h3, h4⟩ := hstep e dag h1 h2
      exact ih (edgeStep dag e) h3 h4
  exact haux2 edges (nodesFold nodes) hnodes.1 hnodes.2

/-! ## Characterisation of the in-degree decrement pass -/

theorem decGo_spec (c : String) :
    ∀ (l : List (String × List String)) (deg : String → Int) (ny : List String),
      (l.map Prod.fst).Nodup →
      (∀ m ds, (m, ds) ∈ l →
        (decGo c l (deg, ny)).1 m = if c ∈ ds then deg m - 1 else deg m) ∧
      (∀ m, m ∉ l.map Prod.fst → (decGo c l (deg, ny)).1 m = deg m) ∧
      (decGo c l (deg, ny)).2 =
        ny ++ (l.filter fun p => decide (c ∈ p.2) && decide (deg p.1 = 1)).map Prod.fst := by
  intro l
  induction l with
  | nil =>
    intro deg ny _
    refine ⟨?_, ?_, ?_⟩
    · intro m ds h
      simp at h
    · intro m _
      rfl
    · simp [decGo]
  | cons p rest ih =>
    intro deg ny hnd
    obtain ⟨k, ds0⟩ := p
    simp only [List.map_cons, List.nodup_cons] at hnd
    obtain ⟨hk, hrest⟩ := hnd
    by_cases hc : c ∈ ds0
    · have hgo : decGo c ((k, ds0) :: rest) (deg, ny) =
          decGo c rest ((fun m => if m = k then deg k - 1 else deg m),
            if deg k - 1 = 0 then ny ++ [k] else ny) := by
        simp only [decGo, List.foldl_cons]
        rw [if_pos hc]
      obtain ⟨ih1, ih2, ih3⟩ :=
        ih (fun m => if m = k then deg k - 1 else deg m)
          (if deg k - 1 = 0 then ny ++ [k] else ny) hrest
      rw [hgo]
      refine ⟨?_, ?_, ?_⟩
      · intro m ds hm
        rcases List.mem_cons.mp hm with heq | hmem
        · injection heq with h1 h2
          subst h1
          subst h2
          rw [ih2 m hk, if_pos rfl, if_pos hc]
        · have hmk : m ≠ k := by
            intro he
            subst he
            exact hk (List.mem_map.mpr ⟨(m, ds), hmem, rfl⟩)
          rw [ih1 m ds hmem, if_neg hmk]
      · intro m hm
        simp only [List.map_cons, List.mem_cons] at hm
        push_neg at hm
        rw [ih2 m hm.2, if_neg hm.1]
      · rw [ih3]
        have hfc : (rest.filter fun p =>
            decide (c ∈ p.2) && decide ((if p.1 = k then deg k - 1 else deg p.1) = 1)) =
            rest.filter fun p => decide (c ∈ p.2) && decide (deg p.1 = 1) := by
          apply List.filter_congr
          intro q hq
          have hqk : q.1 ≠ k := by
            intro he
            exact hk (List.mem_map.mpr ⟨q, hq, he⟩)
          rw [if_neg hqk]
        rw [hfc, List.filter_cons]
        by_cases hdeg : deg k = 1
        · have h10 : deg k - 1 = 0 := by omega
          simp only [if_pos h10]
          have hcond : (decide (c ∈ (k, ds0).2) && decide (deg (k, ds0).1 = 1)) = true := by
            simp [hc, hdeg]
          rw [if_pos hcond]
          simp
        · have h10 : ¬(deg k - 1 = 0) := by omega
          simp only [if_neg h10]
          have hcond : ¬((decide (c ∈ (k, ds0).2) && decide (deg (k, ds0).1 = 1)) = true) := by
            simp [hc, hdeg]
          rw [if_neg hcond]
    · have hgo : decGo c ((k, ds0) :: rest) (deg, ny) = decGo c rest (deg, ny) := by
        simp only [decGo, List.foldl_cons]
        rw [if_neg hc]
      obtain ⟨ih1, ih2, ih3⟩ := ih deg ny hrest
      rw [hgo]
      refine ⟨?_, ?_, ?_⟩
      · intro m ds hm
        rcases List.mem_cons.mp hm with heq | hmem
        · injection heq with h1 h2
          subst h1
          subst h2
          rw [ih2 m hk, if_neg hc]
        · exact ih1 m ds hmem
      · intro m hm
        simp only [List.map_cons, List.mem_cons] at hm
        push_neg at hm
        exact ih2 m hm.2
      · rw [ih3, List.filter_cons]
        have hcond : ¬((decide (c ∈ (k, ds0).2) && decide (deg (k, ds0).1 = 1)) = true) := by
          simp [hc]
        rw [if_neg hcond]

theorem decStep_deg_mem (dag : List (String × List String)) (c : String)
    (deg : String → Int) (m : String) (ds : List String)
    (hk : (dagKeys dag).Nodup) (hm : (m, ds) ∈ dag) :
    (decStep dag c deg).1 m = if c ∈ ds then deg m - 1 else deg m :=
  (decGo_spec c dag deg [] hk).1 m ds hm

theorem decStep_deg_not_mem (dag : List (String × List String)) (c : String)
    (deg : String → Int) (m : String) (hk : (dagKeys dag).Nodup)
    (hm : m ∉ dagKeys dag) : (decStep dag c deg).1 m = deg m :=
  (decGo_spec c dag deg [] hk).2.1 m hm

theorem decStep_newly (dag : List (String × List String)) (c : String)
    (deg : String → Int) (hk : (dagKeys dag).Nodup) :
    (decStep dag c deg).2 =
      (dag.filter fun p => decide (c ∈ p.2) && decide (deg p.1 = 1)).map Prod.fst := by
  have h := (decGo_spec c dag deg [] hk).2.2
  simpa using h

/-! ## List helper lemmas for the Kahn loop invariant -/

theorem foldr_max_le (xs : List Nat) (m : Nat) (h : ∀ i ∈ xs, i ≤ m) :
    xs.foldr max 0 ≤ m := by
  induction xs with
  | nil => exact Nat.zero_le m
  | cons a l ih =>
    simp only [List.foldr_cons]
    exact max_le (h a (List.mem_cons_self a l)) (ih fun i hi => h i (List.mem_cons_of_mem a hi))

theorem le_foldr_max (xs : List Nat) (i : Nat) (hi : i ∈ xs) : i ≤ xs.foldr max 0 := by
  induction xs with
  | nil => simp at hi
  | cons a l ih =>
    simp only [List.foldr_cons]
    rcases List.mem_cons.mp hi with h1 | h1
    · subst h1
      exact le_max_left _ _
    · exact le_trans (ih h1) (le_max_right _ _)

theorem foldr_max_eq (xs : List Nat) (m : Nat) (hm : m ∈ xs) (h : ∀ i ∈ xs, i ≤ m) :
    xs.foldr max 0 = m :=
  le_antisymm (foldr_max_le xs m h) (le_foldr_max xs m hm)

theorem sublist_pairwise_indexOf :
    ∀ (s K : List String), s.Sublist K → K.Nodup →
      s.Pairwise fun a b => K.indexOf a < K.indexOf b := by
  intro s K hsl
  induction hsl with
  | slnil => intro _; constructor
  | @cons l1 l2 a hsl ih =>
    intro hn
    obtain ⟨ha, hn2⟩ := List.nodup_cons.mp hn
    refine (ih hn2).imp_of_mem ?_
    intro x y hx hy hlt
    have hxl : x ∈ l2 := hsl.subset hx
    have hyl : y ∈ l2 := hsl.subset hy
    rw [List.indexOf_cons_ne _ (fun he => ha (by rw [he]; exact hxl)),
      List.indexOf_cons_ne _ (fun he => ha (by rw [he]; exact hyl))]
    exact Nat.succ_lt_succ hlt
  | @cons₂ l1 l2 a hsl ih =>
    intro hn
    obtain ⟨ha, hn2⟩ := List.nodup_cons.mp hn
    constructor
    · intro y hy
      have hyl : y ∈ l2 := hsl.subset hy
      rw [List.indexOf_cons_self, List.indexOf_cons_ne _ (fun he => ha (by rw [he]; exact hyl))]
      exact Nat.succ_pos _
    · refine (ih hn2).imp_of_mem ?_
      intro x y hx hy hlt
      have hxl : x ∈ l2 := hsl.subset hx
      have hyl : y ∈ l2 := hsl.subset hy
      rw [List.indexOf_cons_ne _ (fun he => ha (by rw [he]; exact hxl)),
        List.indexOf_cons_ne _ (fun he => ha (by rw [he]; exact hyl))]
      exact Nat.succ_lt_succ hlt

theorem filter_mem_length_eq_iff (ds res : List String) :
    ((ds.filter fun d => d ∈ res).length = ds.length) ↔ ∀ d ∈ ds, d ∈ res := by
  constructor
  · intro h d hd
    have heq : ds.filter (fun d => d ∈ res) = ds :=
      (List.filter_sublist ds).eq_of_length h
    rw [← heq] at hd
    exact of_decide_eq_true (List.mem_filter.mp hd).2
  · intro h
    rw [List.filter_eq_self.mpr fun a ha => decide_eq_true (h a ha)]

theorem filter_mem_concat_of_not_mem (ds res : List String) (c : String)
    (hc : c ∉ ds) :
    (ds.filter fun d => d ∈ res ++ [c]) = ds.filter fun d => d ∈ res := by
  apply List.filter_congr
  intro d hd
  have hdc : d ≠ c := fun he => hc (he ▸ hd)
  simp [List.mem_append, hdc]

theorem filter_mem_concat_of_mem (ds res : List String) (c : String)
    (hnd : ds.Nodup) (hcres : c ∉ res) (hc : c ∈ ds) :
    (ds.filter fun d => d ∈ res ++ [c]).length =
      (ds.filter fun d => d ∈ res).length + 1 := by
  induction ds with
  | nil => simp at hc
  | cons a l ih =>
    obtain ⟨hal, hln⟩ := List.nodup_cons.mp hnd
    rw [List.filter_cons, List.filter_cons]
    rcases List.mem_cons.mp hc with h1 | h1
    · subst h1
      rw [if_pos (by simp), if_neg (by simp [hcres]),
        filter_mem_concat_of_not_mem l res c hal]
      simp
    · have hac : a ≠ c := fun he => hal (he ▸ h1)
      by_cases har : a ∈ res
      · rw [if_pos (by simp [har]), if_pos (by simp [har])]
        simp only [List.length_cons]
        rw [ih hln h1]
      · rw [if_neg (by simp [har, hac]), if_neg (by simp [har])]
        exact ih hln h1

theorem readyStep_stable (dag : List (String × List String)) (res ext : List String)
    (n : String) (h : ∀ d ∈ depsOf dag n, d ∈ res) :
    readyStep dag (res ++ ext) n = readyStep dag res n := by
  rw [readyStep, readyStep]
  by_cases hd : depsOf dag n = []
  · simp [hd]
  · rw [if_neg hd, if_neg hd, maxIdx, maxIdx]
    have hmap : ((depsOf dag n).map fun d => (res ++ ext).indexOf d) =
        (depsOf dag n).map fun d => res.indexOf d := by
      apply List.map_congr_left
      intro d hd2
      exact List.indexOf_append_of_mem (h d hd2)
    rw [hmap]

/-! ## Preservation of the Kahn loop invariant -/

theorem entry_of_mem_keys (dag : List (String × List String)) (n : String)
    (hn : n ∈ dagKeys dag) : (n, depsOf dag n) ∈ dag := by
  have hs := (lookup_isSome_iff_mem_keys dag n).mpr hn
  cases hl : List.lookup n dag with
  | none => rw [hl] at hs; simp at hs
  | some ds =>
    have hds : depsOf dag n = ds := by rw [depsOf, hl]; rfl
    rw [hds]
    exact mem_of_lookup_eq_some dag n ds hl

theorem kinv_step (dag : List (String × List String))
    (hk : (dagKeys dag).Nodup) (hd : ∀ p ∈ dag, p.2.Nodup)
    (c : String) (rest result : List String) (deg : String → Int)
    (hinv : KInv dag (c :: rest) result deg) :
    KInv dag (rest ++ (decStep dag c deg).2) (result ++ [c]) (decStep dag c deg).1 := by
  obtain ⟨rn, rk, qn, qk, dj, de, qr, ri, tp, lx⟩ := hinv
  have hcK : c ∈ dagKeys dag := qk c (List.mem_cons_self _ _)
  have hcres : c ∉ result := dj c (List.mem_cons_self _ _)
  have hcready : ∀ d ∈ depsOf dag c, d ∈ result := qr c (List.mem_cons_self _ _)
  have hdeps_nodup : ∀ n, n ∈ dagKeys dag → (depsOf dag n).Nodup :=
    fun n hn => hd _ (entry_of_mem_keys dag n hn)
  have hdeg2 : ∀ n ∈ dagKeys dag,
      (decStep dag c deg).1 n = if c ∈ depsOf dag n then deg n - 1 else deg n :=
    fun n hn => decStep_deg_mem dag c deg n (depsOf dag n) hk (entry_of_mem_keys dag n hn)
  have hnewly_mem : ∀ y, y ∈ (decStep dag c deg).2 ↔
      (y ∈ dagKeys dag ∧ c ∈ depsOf dag y ∧ deg y = 1) := by
    intro y
    rw [decStep_newly dag c deg hk]
    constructor
    · intro hy
      obtain ⟨p, hp, hyp⟩ := List.mem_map.mp hy
      obtain ⟨hpdag, hpred⟩ := List.mem_filter.mp hp
      simp only [Bool.and_eq_true, decide_eq_true_eq] at hpred
      have hyK : y ∈ dagKeys dag := by
        rw [dagKeys]
        exact List.mem_map.mpr ⟨p, hpdag, hyp⟩
      have hds : depsOf dag y = p.2 := by
        apply depsOf_eq_of_mem dag y p.2 hk
        have : p = (y, p.2) := by
          rw [← hyp]
        rw [← this]
        exact hpdag
      rw [hds]
      exact ⟨hyK, hpred.1, hyp ▸ hpred.2⟩
    · rintro ⟨hyK, hyc, hydeg⟩
      refine List.mem_map.mpr ⟨(y, depsOf dag y), List.mem_filter.mpr
        ⟨entry_of_mem_keys dag y hyK, ?_⟩, rfl⟩
      simp [hyc, hydeg]
  have hdeg_of_ready : ∀ q, q ∈ dagKeys dag → (∀ d ∈ depsOf dag q, d ∈ result) →
      deg q = 0 := by
    intro q hqK hall
    have hcount : ((depsOf dag q).filter fun d => d ∈ result).length =
        (depsOf dag q).length := (filter_mem_length_eq_iff _ _).mpr hall
    have := de q hqK
    omega
  have hdeg_queue : ∀ q ∈ c :: rest, deg q = 0 :=
    fun q hq => hdeg_of_ready q (qk q hq) (qr q hq)
  have hres_deps : ∀ x ∈ result, ∀ d ∈ depsOf dag x, d ∈ result := by
    intro x hx d hd2
    obtain ⟨l1, l2, hsplit⟩ := List.append_of_mem hx
    have := tp l1 x l2 hsplit d hd2
    rw [hsplit]
    exact List.mem_append_left _ this
  have hdeg_result : ∀ q ∈ result, deg q = 0 :=
    fun q hq => hdeg_of_ready q (rk q hq) (hres_deps q hq)
  have hE_deps : ∀ x ∈ result ++ c :: rest, ∀ d ∈ depsOf dag x, d ∈ result := by
    intro x hx
    rcases List.mem_append.mp hx with h1 | h1
    · exact hres_deps x h1
    · exact qr x h1
  have hnewly_ready : ∀ y ∈ (decStep dag c deg).2,
      ∀ d ∈ depsOf dag y, d ∈ result ++ [c] := by
    intro y hy
    obtain ⟨hyK, hyc, hydeg⟩ := (hnewly_mem y).mp hy
    have hcnt1 : ((depsOf dag y).filter fun d => d ∈ result).length + 1 =
        (depsOf dag y).length := by
      have := de y hyK
      have hle : ((depsOf dag y).filter fun d => d ∈ result).length ≤
          (depsOf dag y).length := List.length_filter_le _ _
      omega
    have hcnt2 : ((depsOf dag y).filter fun d => d ∈ result ++ [c]).length =
        (depsOf dag y).length := by
      rw [filter_mem_concat_of_mem (depsOf dag y) result c (hdeps_nodup y hyK) hcres hyc]
      omega
    exact (filter_mem_length_eq_iff _ _).mp hcnt2
  refine ⟨?_, ?_, ?_, ?_, ?_, ?_, ?_, ?_, ?_, ?_⟩
  · -- result_nodup
    simp [List.nodup_append, rn, hcres]
  · -- result_keys
    intro n hn
    rcases List.mem_append.mp hn with h1 | h1
    · exact rk n h1
    · rw [List.mem_singleton] at h1
      subst h1
      exact hcK
  · -- queue_nodup
    rw [List.nodup_append]
    refine ⟨(List.nodup_cons.mp qn).2, ?_, ?_⟩
    · rw [decStep_newly dag c deg hk]
      exact ((List.filter_sublist dag).map Prod.fst).nodup hk
    · intro y hy hy2
      obtain ⟨-, -, hydeg⟩ := (hnewly_mem y).mp hy2
      have := hdeg_queue y (List.mem_cons_of_mem c hy)
      omega
  · -- queue_keys
    intro n hn
    rcases List.mem_append.mp hn with h1 | h1
    · exact qk n (List.mem_cons_of_mem c h1)
    · exact ((hnewly_mem n).mp h1).1
  · -- disj
    intro n hn
    rcases List.mem_append.mp hn with h1 | h1
    · intro hmem
      rcases List.mem_append.mp hmem with h2 | h2
      · exact dj n (List.mem_cons_of_mem c h1) h2
      · rw [List.mem_singleton] at h2
        subst h2
        exact (List.nodup_cons.mp qn).1 h1
    · intro hmem
      obtain ⟨hnK, hnc, hndeg⟩ := (hnewly_mem n).mp h1
      rcases List.mem_append.mp hmem with h2 | h2
      · have := hdeg_result n h2
        omega
      · rw [List.mem_singleton] at h2
        subst h2
        have := hdeg_queue n (List.mem_cons_self _ _)
        omega
  · -- deg_eq
    intro n hnK
    rw [hdeg2 n hnK]
    by_cases hc2 : c ∈ depsOf dag n
    · rw [if_pos hc2,
        filter_mem_concat_of_mem (depsOf dag n) result c (hdeps_nodup n hnK) hcres hc2]
      have := de n hnK
      omega
    · rw [if_neg hc2, filter_mem_concat_of_not_mem (depsOf dag n) result c hc2]
      exact de n hnK
  · -- queue_ready
    intro n hn
    rcases List.mem_append.mp hn with h1 | h1
    · intro d hd2
      exact List.mem_append_left _ (qr n (List.mem_cons_of_mem c h1) d hd2)
    · exact hnewly_ready n h1
  · -- ready_in
    intro n hnK hnres hnall
    by_cases hall_old : ∀ d ∈ depsOf dag n, d ∈ result
    · have hq := ri n hnK (fun h => hnres (List.mem_append_left _ h)) hall_old
      rcases List.mem_cons.mp hq with h1 | h1
      · subst h1
        exact absurd (List.mem_append_right _ (List.mem_singleton.mpr rfl)) hnres
      · exact List.mem_append_left _ h1
    · push_neg at hall_old
      obtain ⟨d0, hd0, hd0res⟩ := hall_old
      have hd0c : d0 = c := by
        rcases List.mem_append.mp (hnall d0 hd0) with h1 | h1
        · exact absurd h1 hd0res
        · exact List.mem_singleton.mp h1
      rw [hd0c] at hd0
      have hcnt2 : ((depsOf dag n).filter fun d => d ∈ result ++ [c]).length =
          (depsOf dag n).length := (filter_mem_length_eq_iff _ _).mpr hnall
      have hcnt1 : ((depsOf dag n).filter fun d => d ∈ result ++ [c]).length =
          ((depsOf dag n).filter fun d => d ∈ result).length + 1 :=
        filter_mem_concat_of_mem (depsOf dag n) result c (hdeps_nodup n hnK) hcres hd0
      have hdegn : deg n = 1 := by
        have := de n hnK
        omega
      exact List.mem_append_right _ ((hnewly_mem n).mpr ⟨hnK, hd0, hdegn⟩)
  · -- topo
    intro l1 n l2 hsplit
    rcases List.eq_nil_or_concat l2 with rfl | ⟨l2p, x, rfl⟩
    · have hinj := List.append_inj' hsplit rfl
      obtain ⟨hres, hcn⟩ := hinj
      have hcn2 : c = n := by
        injection hcn with h1 _
      subst hcn2
      intro d hd2
      rw [← hres]
      exact hcready d hd2
    · rw [List.concat_eq_append] at hsplit
      have hassoc : l1 ++ n :: (l2p ++ [x]) = (l1 ++ n :: l2p) ++ [x] := by simp
      rw [hassoc] at hsplit
      have hinj := List.append_inj' hsplit rfl
      obtain ⟨hres, -⟩ := hinj
      exact tp l1 n l2p hres
  · -- lex
    have hassoc : (result ++ [c]) ++ (rest ++ (decStep dag c deg).2) =
        (result ++ c :: rest) ++ (decStep dag c deg).2 := by simp
    rw [hassoc, List.pairwise_append]
    have hstep_newly : ∀ y ∈ (decStep dag c deg).2,
        readyStep dag (result ++ [c]) y = result.length + 1 := by
      intro y hy
      obtain ⟨hyK, hyc, -⟩ := (hnewly_mem y).mp hy
      have hne : depsOf dag y ≠ [] := by
        intro h0
        rw [h0] at hyc
        simp at hyc
      rw [readyStep, if_neg hne, maxIdx]
      have hidxc : (result ++ [c]).indexOf c = result.length := by
        rw [List.indexOf_append_of_not_mem hcres, List.indexOf_cons_self]
        omega
      have hmax : (((depsOf dag y).map fun d => (result ++ [c]).indexOf d).foldr max 0) =
          result.length := by
        apply foldr_max_eq
        · exact List.mem_map.mpr ⟨c, hyc, hidxc⟩
        · intro i hi
          obtain ⟨d, hd2, hdi⟩ := List.mem_map.mp hi
          have hdm : d ∈ result ++ [c] := hnewly_ready y hy d hd2
          rcases List.mem_append.mp hdm with h1 | h1
          · rw [← hdi, List.indexOf_append_of_mem h1]
            exact le_of_lt (lt_of_lt_of_le (List.indexOf_lt_length.mpr h1) (le_refl _))
          · rw [List.mem_singleton] at h1
            subst h1
            rw [← hdi, hidxc]
      rw [hmax]
    have hstep_old : ∀ x ∈ result ++ c :: rest,
        readyStep dag (result ++ [c]) x ≤ result.length := by
      intro x hx
      by_cases hne : depsOf dag x = []
      · rw [readyStep, if_pos hne]
        exact Nat.zero_le _
      · rw [readyStep, if_neg hne, maxIdx]
        have hbound : ∀ i ∈ ((depsOf dag x).map fun d => (result ++ [c]).indexOf d),
            i + 1 ≤ result.length := by
          intro i hi
          obtain ⟨d, hd2, hdi⟩ := List.mem_map.mp hi
          have hdr : d ∈ result := hE_deps x hx d hd2
          rw [← hdi, List.indexOf_append_of_mem hdr]
          exact List.indexOf_lt_length.mpr hdr
        have hne2 : ∃ d, d ∈ depsOf dag x := by
          cases hdl : depsOf dag x with
          | nil => exact absurd hdl hne
          | cons d0 ds0 => exact ⟨d0, List.mem_cons_self _ _⟩
        obtain ⟨d0, hd0⟩ := hne2
        have h1le : 1 ≤ result.length := by
          have := hbound ((result ++ [c]).indexOf d0) (List.mem_map.mpr ⟨d0, hd0, rfl⟩)
          omega
        have hmle := foldr_max_le ((depsOf dag x).map fun d => (result ++ [c]).indexOf d)
          (result.length - 1) (by
            intro i hi
            have := hbound i hi
            omega)
        omega
    refine ⟨?_, ?_, ?_⟩
    · refine lx.imp_of_mem ?_
      intro x y hx hy hr
      have hsx := readyStep_stable dag result [c] x (hE_deps x hx)
      have hsy := readyStep_stable dag result [c] y (hE_deps y hy)
      rw [lexRel] at hr ⊢
      rw [hsx, hsy]
      exact hr
    · have hkpos : (decStep dag c deg).2.Pairwise
          (fun a b => (dagKeys dag).indexOf a < (dagKeys dag).indexOf b) := by
        rw [decStep_newly dag c deg hk]
        exact sublist_pairwise_indexOf _ _ ((List.filter_sublist _).map Prod.fst) hk
      refine hkpos.imp_of_mem ?_
      intro x y hx hy hlt
      right
      rw [hstep_newly x hx, hstep_newly y hy]
      exact ⟨rfl, hlt⟩
    · intro x hx y hy
      left
      rw [hstep_newly y hy]
      exact Nat.lt_succ_of_le (hstep_old x hx)

/-! ## The Kahn loop: master induction and initial state -/

theorem kahnRun_post (dag : List (String × List String))
    (hk : (dagKeys dag).Nodup) (hd : ∀ p ∈ dag, p.2.Nodup) :
    ∀ (fuel : Nat) (queue result : List String) (deg : String → Int),
      KInv dag queue result deg →
      dag.length + 1 ≤ fuel + result.length →
      (kahnRun dag fuel queue result deg).Nodup ∧
      (∀ n ∈ kahnRun dag fuel queue result deg, n ∈ dagKeys dag) ∧
      (∀ l1 n l2, kahnRun dag fuel queue result deg = l1 ++ n :: l2 →
        ∀ d ∈ depsOf dag n, d ∈ l1) ∧
      (∀ n ∈ dagKeys dag, n ∉ kahnRun dag fuel queue result deg →
        ∃ d ∈ depsOf dag n, d ∉ kahnRun dag fuel queue result deg) ∧
      (kahnRun dag fuel queue result deg).Pairwise
        (lexRel dag (kahnRun dag fuel queue result deg)) := by
  intro fuel
  induction fuel with
  | zero =>
    intro queue result deg hinv hfuel
    exfalso
    have hlen : result.length ≤ (dagKeys dag).length := by
      apply List.Subperm.length_le
      apply List.subperm_of_subset hinv.result_nodup
      intro n hn
      exact hinv.result_keys n hn
    have hlenK : (dagKeys dag).length = dag.length := by simp [dagKeys]
    omega
  | succ fuel ih =>
    intro queue result deg hinv hfuel
    cases queue with
    | nil =>
      have hrun : kahnRun dag (fuel + 1) [] result deg = result := rfl
      rw [hrun]
      refine ⟨hinv.result_nodup, hinv.result_keys, hinv.topo, ?_, ?_⟩
      · intro n hnK hnres
        by_contra hcon
        push_neg at hcon
        exact List.not_mem_nil n (hinv.ready_in n hnK hnres hcon)
      · have hlx := hinv.lex
        simpa using hlx
    | cons c rest =>
      have hrun : kahnRun dag (fuel + 1) (c :: rest) result deg =
          kahnRun dag fuel (rest ++ (decStep dag c deg).2) (result ++ [c])
            ((decStep dag c deg).1) := rfl
      rw [hrun]
      apply ih
      · exact kinv_step dag hk hd c rest result deg hinv
      · simp only [List.length_append, List.length_cons, List.length_nil] at hfuel ⊢
        omega

theorem kinv_init (dag : List (String × List String))
    (hk : (dagKeys dag).Nodup) (_hd : ∀ p ∈ dag, p.2.Nodup) :
    KInv dag ((dag.filter fun p => p.2.isEmpty).map Prod.fst) []
      (fun m => (((List.lookup m dag).getD []).length : Int)) := by
  have hq_mem : ∀ n, n ∈ (dag.filter fun p => p.2.isEmpty).map Prod.fst ↔
      (n ∈ dagKeys dag ∧ depsOf dag n = []) := by
    intro n
    constructor
    · intro hn
      obtain ⟨p, hp, hpn⟩ := List.mem_map.mp hn
      obtain ⟨hpdag, hpe⟩ := List.mem_filter.mp hp
      have hnK : n ∈ dagKeys dag := List.mem_map.mpr ⟨p, hpdag, hpn⟩
      have hds : depsOf dag n = p.2 := by
        apply depsOf_eq_of_mem dag n p.2 hk
        have hpp : p = (n, p.2) := by rw [← hpn]
        rw [← hpp]
        exact hpdag
      refine ⟨hnK, ?_⟩
      rw [hds]
      rw [List.isEmpty_iff] at hpe
      exact hpe
    · rintro ⟨hnK, hne⟩
      refine List.mem_map.mpr ⟨(n, depsOf dag n), List.mem_filter.mpr
        ⟨entry_of_mem_keys dag n hnK, ?_⟩, rfl⟩
      simp [hne]
  have hdeg0 : ∀ n, (((List.lookup n dag).getD []).length : Int) =
      ((depsOf dag n).length : Int) := fun n => rfl
  refine ⟨List.nodup_nil, by simp, ?_, ?_, by simp, ?_, ?_, ?_, ?_, ?_⟩
  · exact ((List.filter_sublist dag).map Prod.fst).nodup hk
  · intro n hn
    exact ((hq_mem n).mp hn).1
  · intro n hnK
    have hfe : ((depsOf dag n).filter fun d => d ∈ ([] : List String)) = [] := by
      simp
    rw [hfe]
    simp [depsOf]
  · intro n hn d hd2
    rw [((hq_mem n).mp hn).2] at hd2
    simp at hd2
  · intro n hnK _ hall
    have hne : depsOf dag n = [] := by
      rw [List.eq_nil_iff_forall_not_mem]
      intro d hd2
      exact List.not_mem_nil d (hall d hd2)
    exact (hq_mem n).mpr ⟨hnK, hne⟩
  · intro l1 n l2 h
    exfalso
    cases l1 <;> simp at h
  · have hsl : ((dag.filter fun p => p.2.isEmpty).map Prod.fst).Sublist (dagKeys dag) :=
      (List.filter_sublist dag).map Prod.fst
    have hkpos := sublist_pairwise_indexOf _ _ hsl hk
    rw [List.nil_append]
    refine hkpos.imp_of_mem ?_
    intro x y hx hy hlt
    right
    have hdx : depsOf dag x = [] := ((hq_mem x).mp hx).2
    have hdy : depsOf dag y = [] := ((hq_mem y).mp hy).2
    rw [readyStep, if_pos hdx, readyStep, if_pos hdy]
    exact ⟨rfl, hlt⟩

/-- Post-conditions of a successful `topoSort`: the order is a
duplicate-free enumeration of all dag keys, respects dependencies, and
is sorted by the (ready step, key position) lexicographic order. -/
theorem topoSort_ok_post (dag : List (String × List String))
    (hk : (dagKeys dag).Nodup) (hd : ∀ p ∈ dag, p.2.Nodup)
    (r : List String) (hok : topoSort dag = Except.ok r) :
    r.Nodup ∧ (∀ n, n ∈ r ↔ n ∈ dagKeys dag) ∧
    (∀ l1 n l2, r = l1 ++ n :: l2 → ∀ d ∈ depsOf dag n, d ∈ l1) ∧
    r.Pairwise (lexRel dag r) := by
  have hpost := kahnRun_post dag hk hd (dag.length + 1)
    ((dag.filter fun p => p.2.isEmpty).map Prod.fst) []
    (fun m => (((List.lookup m dag).getD []).length : Int))
    (kinv_init dag hk hd) (by simp)
  simp only [topoSort] at hok
  split at hok
  · exact absurd hok (by simp)
  · rename_i hlen
    push_neg at hlen
    have hr : r = kahnRun dag (dag.length + 1)
        ((dag.filter fun p => p.2.isEmpty).map Prod.fst) []
        (fun m => (((List.lookup m dag).getD []).length : Int)) :=
      (Except.ok.inj hok).symm
    subst hr
    obtain ⟨hnd, hsub, htopo, _, hlex⟩ := hpost
    refine ⟨hnd, ?_, htopo, hlex⟩
    intro n
    constructor
    · exact hsub n
    · intro hnK
      have hperm : (kahnRun dag (dag.length + 1)
          ((dag.filter fun p => p.2.isEmpty).map Prod.fst) []
          (fun m => (((List.lookup m dag).getD []).length : Int))).Perm
          (dagKeys dag) := by
        apply List.Subperm.perm_of_length_le
        · exact List.subperm_of_subset hnd hsub
        · have hlK : (dagKeys dag).length = dag.length := by simp [dagKeys]
          omega
      exact hperm.mem_iff.mpr hnK

/-- C4: a workflow whose dependency graph contains a directed cycle
fails before any node runs, with empty `node_results` and the
circular-dependency error, for every trigger payload and every node
behaviour. -/
theorem cyclic_workflow_fails (nodes : List NodeDef) (edges : List EdgeDef)
    (td : Value) (f : String → Ctx → Except String Value)
    (a : String) (rest : List String)
    (hcyc : IsCycle (buildDag nodes edges) a rest) :
    execute nodes edges td f =
      { status := "failed", nodeResults := [], error := some circularMsg } := by
  obtain ⟨hk, hd⟩ := goodDag_buildDag nodes edges
  unfold execute
  cases hts : topoSort (buildDag nodes edges) with
  | error e =>
    have he : e = circularMsg := by
      simp only [topoSort] at hts
      split at hts
      · exact (Except.error.inj hts).symm
      · exact absurd hts (by simp)
    rw [he]
  | ok r =>
    exfalso
    obtain ⟨hnd, hmem, htopo, -⟩ := topoSort_ok_post _ hk hd r hts
    set dag := buildDag nodes edges with hdag
    have hdep_lt : ∀ x y, x ∈ depsOf dag y → y ∈ r →
        x ∈ r ∧ r.indexOf x < r.indexOf y := by
      intro x y hxy hy
      obtain ⟨l1, l2, heq⟩ := List.append_of_mem hy
      have hx1 : x ∈ l1 := htopo l1 y l2 heq x hxy
      constructor
      · rw [heq]; exact List.mem_append_left _ hx1
      · have hr2 := hnd
        rw [heq] at hr2
        obtain ⟨-, -, hdisj⟩ := List.nodup_append.mp hr2
        have hyl1 : y ∉ l1 := fun hyy => hdisj hyy (List.mem_cons_self y l2)
        rw [heq, List.indexOf_append_of_mem hx1,
          List.indexOf_append_of_not_mem hyl1, List.indexOf_cons_self]
        have hlt := List.indexOf_lt_length.mpr hx1
        omega
    have ha_r : a ∈ r :=
      (hmem a).mpr (mem_keys_of_mem_depsOf dag _ a hcyc.2)
    have hchain_keys : ∀ (l : List String) (z : String),
        List.Chain (depRel dag) z l → ∀ w ∈ l, w ∈ dagKeys dag := by
      intro l
      induction l with
      | nil => intro z _ w hw; exact absurd hw (List.not_mem_nil w)
      | cons b l ih =>
        intro z hch w hw
        rw [List.chain_cons] at hch
        rcases List.mem_cons.mp hw with hwb | hwl
        · rw [hwb]; exact mem_keys_of_mem_depsOf dag z b hch.1
        · exact ih b hch.2 w hwl
    have hlast_mem : (a :: rest).getLast (List.cons_ne_nil a rest) ∈ r := by
      have hm := List.getLast_mem (List.cons_ne_nil a rest)
      rcases List.mem_cons.mp hm with h1 | h1
      · rw [h1]; exact ha_r
      · exact (hmem _).mpr (hchain_keys rest a hcyc.1 _ h1)
    have hchain_le : ∀ (l : List String) (z : String),
        List.Chain (depRel dag) z l →
        (z :: l).getLast (List.cons_ne_nil z l) ∈ r →
        z ∈ r ∧ r.indexOf z ≤ r.indexOf ((z :: l).getLast (List.cons_ne_nil z l)) := by
      intro l
      induction l with
      | nil =>
        intro z _ hlast
        exact ⟨hlast, le_refl _⟩
      | cons b l ih =>
        intro z hch hlast
        rw [List.chain_cons] at hch
        have hgl : (z :: b :: l).getLast (List.cons_ne_nil z (b :: l)) =
            (b :: l).getLast (List.cons_ne_nil b l) :=
          List.getLast_cons (List.cons_ne_nil b l)
        rw [hgl] at hlast ⊢
        obtain ⟨hb, hble⟩ := ih b hch.2 hlast
        obtain ⟨hz, hzlt⟩ := hdep_lt z b hch.1 hb
        exact ⟨hz, le_trans (le_of_lt hzlt) hble⟩
    obtain ⟨-, hle⟩ := hchain_le rest a hcyc.1 hlast_mem
    obtain ⟨-, hlt⟩ := hdep_lt _ a hcyc.2 ha_r
    omega

/-- Witness for C4 on the three-cycle a → b → c → a. -/
theorem cyclic_workflow_fails_witness :
    IsCycle (buildDag [⟨"a"⟩, ⟨"b"⟩, ⟨"c"⟩]
        [⟨some "a", some "b"⟩, ⟨some "b", some "c"⟩, ⟨some "c", some "a"⟩])
      "a" ["b", "c"] ∧
    execute [⟨"a"⟩, ⟨"b"⟩, ⟨"c"⟩]
        [⟨some "a", some "b"⟩, ⟨some "b", some "c"⟩, ⟨some "c", some "a"⟩]
        Value.null (fun _ _ => Except.ok Value.null) =
      { status := "failed", nodeResults := [], error := some circularMsg } := by
  have hcyc : IsCycle (buildDag [⟨"a"⟩, ⟨"b"⟩, ⟨"c"⟩]
      [⟨some "a", some "b"⟩, ⟨some "b", some "c"⟩, ⟨some "c", some "a"⟩])
      "a" ["b", "c"] := by
    refine ⟨?_, ?_⟩
    · rw [List.chain_cons, List.chain_cons]
      refine ⟨?_, ?_, List.Chain.nil⟩
      · show "a" ∈ depsOf _ "b"
        decide
      · show "b" ∈ depsOf _ "c"
        decide
    · show _ ∈ depsOf _ "a"
      decide
  exact ⟨hcyc, cyclic_workflow_fails _ _ _ _ "a" ["b", "c"] hcyc⟩

/-- With distinct node ids, the node loop of `_build_dag` creates the
keys in node order. -/
theorem dagKeys_nodesFold (nodes : List NodeDef)
    (hids : (nodes.map NodeDef.id).Nodup) :
    dagKeys (nodesFold nodes) = nodes.map NodeDef.id := by
  suffices haux : ∀ (l : List NodeDef) (acc : List (String × List String)),
      (dagKeys acc ++ l.map NodeDef.id).Nodup →
      dagKeys (l.foldl (fun d nd => dagAddNode d nd.id) acc) =
        dagKeys acc ++ l.map NodeDef.id by
    have h := haux nodes [] (by simpa [dagKeys] using hids)
    simpa [nodesFold, dagKeys] using h
  intro l
  induction l with
  | nil => intro acc _; simp
  | cons nd rest ih =>
    intro acc hnd
    rw [List.foldl_cons]
    have hnotin : nd.id ∉ dagKeys acc := by
      rw [List.map_cons] at hnd
      obtain ⟨-, -, hdisj⟩ := List.nodup_append.mp hnd
      intro hin
      exact hdisj hin (List.mem_cons_self _ _)
    have hkeys : dagKeys (dagAddNode acc nd.id) = dagKeys acc ++ [nd.id] := by
      rw [dagKeys_dagAddNode, if_neg hnotin]
    rw [ih (dagAddNode acc nd.id) (by
      rw [hkeys, List.append_assoc, List.singleton_append, ← List.map_cons]
      exact hnd)]
    rw [hkeys, List.append_assoc, List.singleton_append, List.map_cons]

/-- When every (valid) edge targets a declared node id, the edge loop
adds no key: the dag keys are exactly the node ids in node order. -/
theorem dagKeys_buildDag_of_wf (nodes : List NodeDef) (edges : List EdgeDef)
    (hids : (nodes.map NodeDef.id).Nodup)
    (hwft : ∀ e ∈ edges, ∀ s t, e.source = some s → e.target = some t →
      s ≠ "" → t ≠ "" → t ∈ nodes.map NodeDef.id) :
    dagKeys (buildDag nodes edges) = nodes.map NodeDef.id := by
  have haux : ∀ (l : List EdgeDef) (dag : List (String × List String)),
      (∀ e ∈ l, ∀ s t, e.source = some s → e.target = some t →
        s ≠ "" → t ≠ "" → t ∈ nodes.map NodeDef.id) →
      dagKeys dag = nodes.map NodeDef.id →
      dagKeys (l.foldl edgeStep dag) = nodes.map NodeDef.id := by
    intro l
    induction l with
    | nil => intro dag _ h; exact h
    | cons e rest ih =>
      intro dag hwf2 hkeq
      rw [List.foldl_cons]
      apply ih _ (fun e2 he2 => hwf2 e2 (List.mem_cons_of_mem e he2))
      cases hs : e.source with
      | none => rw [edgeStep_src_none dag e hs]; exact hkeq
      | some s =>
        cases ht : e.target with
        | none => rw [edgeStep_tgt_none dag e ht]; exact hkeq
        | some t =>
          rw [edgeStep_of_eq dag e s t hs ht]
          by_cases hne : s ≠ "" ∧ t ≠ ""
          · rw [if_pos hne, dagKeys_appendDep, if_pos (by
              rw [hkeq]
              exact hwf2 e (List.mem_cons_self e rest) s t hs ht hne.1 hne.2)]
            exact hkeq
          · rw [if_neg hne]; exact hkeq
  exact haux edges (nodesFold nodes) hwft (dagKeys_nodesFold nodes hids)

/-- Reading a pairwise property off the index order of a list. -/
theorem pairwise_indexOf_lt {R : String → String → Prop} (l : List String)
    (hp : l.Pairwise R) (x y : String) (hx : x ∈ l) (hy : y ∈ l)
    (hlt : l.indexOf x < l.indexOf y) : R x y := by
  rw [List.pairwise_iff_get] at hp
  have hxl : l.indexOf x < l.length := List.indexOf_lt_length.mpr hx
  have hyl : l.indexOf y < l.length := List.indexOf_lt_length.mpr hy
  have h := hp ⟨l.indexOf x, hxl⟩ ⟨l.indexOf y, hyl⟩ hlt
  rwa [List.indexOf_get, List.indexOf_get] at h

/-- In a list with the topological split property, every dependency of
a member precedes it. -/
theorem idx_lt_of_dep (dag : List (String × List String)) (r : List String)
    (hnd : r.Nodup)
    (htopo : ∀ l1 n l2, r = l1 ++ n :: l2 → ∀ d ∈ depsOf dag n, d ∈ l1)
    (x y : String) (hxy : x ∈ depsOf dag y) (hy : y ∈ r) :
    x ∈ r ∧ r.indexOf x < r.indexOf y := by
  obtain ⟨l1, l2, heq⟩ := List.append_of_mem hy
  have hx1 : x ∈ l1 := htopo l1 y l2 heq x hxy
  constructor
  · rw [heq]; exact List.mem_append_left _ hx1
  · have hr2 := hnd
    rw [heq] at hr2
    obtain ⟨-, -, hdisj⟩ := List.nodup_append.mp hr2
    have hyl1 : y ∉ l1 := fun hyy => hdisj hyy (List.mem_cons_self y l2)
    rw [heq, List.indexOf_append_of_mem hx1,
      List.indexOf_append_of_not_mem hyl1, List.indexOf_cons_self]
    have hlt := List.indexOf_lt_length.mpr hx1
    omega

/-- C5: for a workflow whose graph is a valid DAG (distinct node ids,
edge endpoints among the node ids, and a rank function certifying
acyclicity), the dispatch order is a topological order of the graph —
every node after all its predecessors — and two nodes that become
ready at the same step are dispatched in the order of their first
appearance in the `nodes` sequence. -/
theorem dag_dispatch_topological_order (nodes : List NodeDef) (edges : List EdgeDef)
    (hids : (nodes.map NodeDef.id).Nodup)
    (hwf : ∀ e ∈ edges, ∀ s t, e.source = some s → e.target = some t →
      s ≠ "" → t ≠ "" → s ∈ nodes.map NodeDef.id ∧ t ∈ nodes.map NodeDef.id)
    (rank : String → Nat)
    (hrank : ∀ e ∈ edges, ∀ s t, e.source = some s → e.target = some t →
      s ≠ "" → t ≠ "" → rank s < rank t) :
    ∃ ord, topoSort (buildDag nodes edges) = Except.ok ord ∧
      ord.Nodup ∧
      (∀ n, n ∈ ord ↔ n ∈ nodes.map NodeDef.id) ∧
      (∀ e ∈ edges, ∀ s t, e.source = some s → e.target = some t →
        s ≠ "" → t ≠ "" → ord.indexOf s < ord.indexOf t) ∧
      (∀ x ∈ ord, ∀ y ∈ ord,
        readyStep (buildDag nodes edges) ord x = readyStep (buildDag nodes edges) ord y →
        firstPos nodes x < firstPos nodes y →
        ord.indexOf x < ord.indexOf y) := by
  obtain ⟨hk, hd⟩ := goodDag_buildDag nodes edges
  have hKeq : dagKeys (buildDag nodes edges) = nodes.map NodeDef.id :=
    dagKeys_buildDag_of_wf nodes edges hids
      (fun e he s t hs ht hs0 ht0 => (hwf e he s t hs ht hs0 ht0).2)
  have hpost := kahnRun_post (buildDag nodes edges) hk hd
    ((buildDag nodes edges).length + 1)
    (((buildDag nodes edges).filter fun p => p.2.isEmpty).map Prod.fst) []
    (fun m => (((List.lookup m (buildDag nodes edges)).getD []).length : Int))
    (kinv_init (buildDag nodes edges) hk hd) (by simp)
  obtain ⟨hnd, hsub, htopo, hstuck, -⟩ := hpost
  have hall : ∀ m, ∀ n ∈ dagKeys (buildDag nodes edges), rank n < m →
      n ∈ kahnRun (buildDag nodes edges) ((buildDag nodes edges).length + 1)
        (((buildDag nodes edges).filter fun p => p.2.isEmpty).map Prod.fst) []
        (fun m2 => (((List.lookup m2 (buildDag nodes edges)).getD []).length : Int)) := by
    intro m
    induction m with
    | zero => intro n _ h; omega
    | succ m ih =>
      intro n hnK hr
      by_contra hnot
      obtain ⟨d, hd_dep, hd_not⟩ := hstuck n hnK hnot
      obtain ⟨e, he, hes, het, hs0, ht0⟩ := mem_depsOf_buildDag nodes edges d n hd_dep
      have hdK : d ∈ dagKeys (buildDag nodes edges) := by
        rw [hKeq]; exact (hwf e he d n hes het hs0 ht0).1
      have hrd : rank d < rank n := hrank e he d n hes het hs0 ht0
      exact hd_not (ih d hdK (by omega))
  have hallK : ∀ n ∈ dagKeys (buildDag nodes edges),
      n ∈ kahnRun (buildDag nodes edges) ((buildDag nodes edges).length + 1)
        (((buildDag nodes edges).filter fun p => p.2.isEmpty).map Prod.fst) []
        (fun m2 => (((List.lookup m2 (buildDag nodes edges)).getD []).length : Int)) :=
    fun n hn => hall (rank n + 1) n hn (Nat.lt_succ_self _)
  have hlen : (kahnRun (buildDag nodes edges) ((buildDag nodes edges).length + 1)
      (((buildDag nodes edges).filter fun p => p.2.isEmpty).map Prod.fst) []
      (fun m2 => (((List.lookup m2 (buildDag nodes edges)).getD []).length : Int))).length =
      (buildDag nodes edges).length := by
    have h1 := (List.subperm_of_subset hnd hsub).length_le
    have h2 := (List.subperm_of_subset hk hallK).length_le
    have h3 : (dagKeys (buildDag nodes edges)).length = (buildDag nodes edges).length := by
      simp [dagKeys]
    omega
  have hok : topoSort (buildDag nodes edges) = Except.ok
      (kahnRun (buildDag nodes edges) ((buildDag nodes edges).length + 1)
        (((buildDag nodes edges).filter fun p => p.2.isEmpty).map Prod.fst) []
        (fun m2 => (((List.lookup m2 (buildDag nodes edges)).getD []).length : Int))) := by
    simp only [topoSort]
    rw [if_neg (fun h => h hlen)]
  refine ⟨_, hok, ?_, ?_, ?_, ?_⟩
  · exact hnd
  · intro n
    rw [← hKeq]
    exact ⟨hsub n, hallK n⟩
  · intro e he s t hes het hs0 ht0
    have hst : s ∈ depsOf (buildDag nodes edges) t :=
      edge_mem_depsOf nodes edges e he s t hes het hs0 ht0
    have htK : t ∈ dagKeys (buildDag nodes edges) := by
      rw [hKeq]; exact (hwf e he s t hes het hs0 ht0).2
    exact (idx_lt_of_dep _ _ hnd htopo s t hst (hallK t htK)).2
  · intro x hx y hy hstep hfp
    obtain ⟨-, -, -, -, hlex⟩ := kahnRun_post (buildDag nodes edges) hk hd
      ((buildDag nodes edges).length + 1)
      (((buildDag nodes edges).filter fun p => p.2.isEmpty).map Prod.fst) []
      (fun m2 => (((List.lookup m2 (buildDag nodes edges)).getD []).length : Int))
      (kinv_init (buildDag nodes edges) hk hd) (by simp)
    have hxl := List.indexOf_lt_length.mpr hx
    have hyl := List.indexOf_lt_length.mpr hy
    have hne : (kahnRun (buildDag nodes edges) ((buildDag nodes edges).length + 1)
        (((buildDag nodes edges).filter fun p => p.2.isEmpty).map Prod.fst) []
        (fun m2 => (((List.lookup m2 (buildDag nodes edges)).getD []).length : Int))).indexOf x ≠
        (kahnRun (buildDag nodes edges) ((buildDag nodes edges).length + 1)
        (((buildDag nodes edges).filter fun p => p.2.isEmpty).map Prod.fst) []
        (fun m2 => (((List.lookup m2 (buildDag nodes edges)).getD []).length : Int))).indexOf y := by
      intro he2
      have h1 := List.indexOf_get hxl
      have h2 := List.indexOf_get hyl
      have hxy : x = y := by
        rw [← h1, ← h2]
        exact congrArg _ (Fin.ext he2)
      rw [hxy] at hfp
      exact lt_irrefl _ hfp
    rcases Nat.lt_or_ge ((kahnRun (buildDag nodes edges) ((buildDag nodes edges).length + 1)
        (((buildDag nodes edges).filter fun p => p.2.isEmpty).map Prod.fst) []
        (fun m2 => (((List.lookup m2 (buildDag nodes edges)).getD []).length : Int))).indexOf x)
        ((kahnRun (buildDag nodes edges) ((buildDag nodes edges).length + 1)
        (((buildDag nodes edges).filter fun p => p.2.isEmpty).map Prod.fst) []
        (fun m2 => (((List.lookup m2 (buildDag nodes edges)).getD []).length : Int))).indexOf y) with
      hlt | hge
    · exact hlt
    · exfalso
      have hyx : lexRel (buildDag nodes edges)
          (kahnRun (buildDag nodes edges) ((buildDag nodes edges).length + 1)
            (((buildDag nodes edges).filter fun p => p.2.isEmpty).map Prod.fst) []
            (fun m2 => (((List.lookup m2 (buildDag nodes edges)).getD []).length : Int))) y x :=
        pairwise_indexOf_lt _ hlex y x hy hx (by omega)
      rcases hyx with h1 | ⟨-, h2⟩
      · omega
      · rw [hKeq] at h2
        have hfx : firstPos nodes x = (nodes.map NodeDef.id).indexOf x := rfl
        have hfy : firstPos nodes y = (nodes.map NodeDef.id).indexOf y := rfl
        omega

/-- Witness for C5 on the diamond a → b, a → c, b → d, c → d. -/
theorem dag_dispatch_topological_order_witness :
    ∃ ord, topoSort (buildDag [⟨"a"⟩, ⟨"b"⟩, ⟨"c"⟩, ⟨"d"⟩]
        [⟨some "a", some "b"⟩, ⟨some "a", some "c"⟩,
         ⟨some "b", some "d"⟩, ⟨some "c", some "d"⟩]) = Except.ok ord ∧
      ord.Nodup ∧
      (∀ n, n ∈ ord ↔ n ∈ [⟨"a"⟩, ⟨"b"⟩, ⟨"c"⟩, (⟨"d"⟩ : NodeDef)].map NodeDef.id) ∧
      (∀ e ∈ [⟨some "a", some "b"⟩, ⟨some "a", some "c"⟩,
          ⟨some "b", some "d"⟩, (⟨some "c", some "d"⟩ : EdgeDef)],
        ∀ s t, e.source = some s → e.target = some t →
        s ≠ "" → t ≠ "" → ord.indexOf s < ord.indexOf t) ∧
      (∀ x ∈ ord, ∀ y ∈ ord,
        readyStep (buildDag [⟨"a"⟩, ⟨"b"⟩, ⟨"c"⟩, ⟨"d"⟩]
          [⟨some "a", some "b"⟩, ⟨some "a", some "c"⟩,
           ⟨some "b", some "d"⟩, ⟨some "c", some "d"⟩]) ord x =
        readyStep (buildDag [⟨"a"⟩, ⟨"b"⟩, ⟨"c"⟩, ⟨"d"⟩]
          [⟨some "a", some "b"⟩, ⟨some "a", some "c"⟩,
           ⟨some "b", some "d"⟩, ⟨some "c", some "d"⟩]) ord y →
        firstPos [⟨"a"⟩, ⟨"b"⟩, ⟨"c"⟩, ⟨"d"⟩] x < firstPos [⟨"a"⟩, ⟨"b"⟩, ⟨"c"⟩, ⟨"d"⟩] y →
        ord.indexOf x < ord.indexOf y) := by
  apply dag_dispatch_topological_order [⟨"a"⟩, ⟨"b"⟩, ⟨"c"⟩, ⟨"d"⟩]
    [⟨some "a", some "b"⟩, ⟨some "a", some "c"⟩,
     ⟨some "b", some "d"⟩, ⟨some "c", some "d"⟩]
    (by decide)
    (by
      intro e he s t hes het hs0 ht0
      fin_cases he <;>
        (injection hes with hs1; injection het with ht1; subst hs1; subst ht1; decide))
    (fun s => if s = "a" then 0 else if s = "d" then 2 else 1)
    (by
      intro e he s t hes het hs0 ht0
      fin_cases he <;>
        (injection hes with hs1; injection het with ht1; subst hs1; subst ht1; decide))

example : rlAllowed 2 3600 [5, 5, 5] = [true, true, true] := by decide

example : rlAllowed 3 3600 [1, 2, 3, 4] = [true, true, true, false] := by decide

example : scanTpl "Hello, {{trigger.name}}!".toList = ["trigger.name".toList] := by decide

end AgentPlatform
